import Mathlib

/-
A shallow embedding of the recursive site crawler implemented by the server
action `getRoutesFromPage` (src/unnamed/part_000).

Pure helpers of the source (`normalizeUrl`, `getPathFromUrl`, `isValidUrl`)
are translated directly.  The effectful collaborators are made explicit:

* HTTP fetching and HTML anchor extraction are supplied by a `World` oracle
  (`World.fetchAttempt url i` is the outcome of the `i`-th `fetch` attempt for
  `url`; `World.extractHrefs html` is the list of `href` attribute values the
  `$("a[href]")` query yields, in document order).
* A JavaScript value thrown inside the `try` block of `crawlPage` (the only
  remaining throw site is `response.text()`) is modelled by `JsThrown`, and
  the `try` region is the `Except`-valued `crawlBody`.
* The mutable closure state (`visited`, `pageCount`) is threaded as a
  `CrawlState`, extended with a ghost log `fetched` of the URLs for which a
  fetch was issued.
* The concurrent fan-out (`Promise.allSettled` over the child crawls) is
  linearised left-to-right in link insertion order.  This realises one of the
  schedules of the cooperative (single-threaded, run-to-completion)
  JavaScript runtime; all properties proved below are schedule-insensitive.

The WHATWG `URL` builtin is a black box of the platform; it is modelled by a
simplified parser that is faithful on the fragment the crawler exercises:
scheme detection with ASCII lowercasing, special (`http`/`https`/`ws`/`wss`/
`ftp`) versus non-special ("cannot be a base") URLs, host validation and
ASCII lowercasing, relative reference resolution, and stripping of query and
fragment.  Simplifications (documented where relevant): no ports, no
userinfo, no percent-encoding, no dot-segment normalisation, and any control
or space character remaining after the WHATWG trim makes the parse fail
(real parsers percent-encode some of these instead).
-/

/-! ### Character classes (numeric, over code points) -/

/-- ASCII lowercasing of a single character, as the URL parser applies to
schemes and hosts. -/
def lowerChar (c : Char) : Char :=
  if 65 ≤ c.toNat ∧ c.toNat ≤ 90 then Char.ofNat (c.toNat + 32) else c

/-- ASCII letter. -/
def isAlphaN (c : Char) : Bool :=
  (65 ≤ c.toNat && c.toNat ≤ 90) || (97 ≤ c.toNat && c.toNat ≤ 122)

/-- ASCII digit. -/
def isDigitN (c : Char) : Bool :=
  48 ≤ c.toNat && c.toNat ≤ 57

/-- Characters allowed in a URL scheme after the first (letters, digits,
`+`, `-`, `.`). -/
def isSchemeChar (c : Char) : Bool :=
  isAlphaN c || isDigitN c || c.toNat = 43 || c.toNat = 45 || c.toNat = 46

/-- Characters the host validator accepts (letters, digits, `-`, `.`, `_`);
in particular none of the forbidden host code points (space, `/`, `?`, `#`,
`:`, `@`, ...). -/
def isHostChar (c : Char) : Bool :=
  isAlphaN c || isDigitN c || c.toNat = 45 || c.toNat = 46 || c.toNat = 95

/-- C0 control or space: what the WHATWG parser trims from both ends. -/
def isSpaceC0 (c : Char) : Bool := c.toNat ≤ 32

/-- Tab, LF or CR: removed everywhere by the WHATWG parser. -/
def isTabNL (c : Char) : Bool := c.toNat = 9 || c.toNat = 10 || c.toNat = 13

/-- Character ending the authority component: `/`, `?` or `#`. -/
def isAuthStop (c : Char) : Bool := c.toNat = 47 || c.toNat = 63 || c.toNat = 35

/-- Character ending the path component: `?` or `#`. -/
def isQueryStop (c : Char) : Bool := c.toNat = 63 || c.toNat = 35

/-- Character ending the query component: `#`. -/
def isHashStop (c : Char) : Bool := c.toNat = 35

/-! ### Small character lemmas -/

theorem char_eq_of_toNat {c d : Char} (h : c.toNat = d.toNat) : c = d := by
  apply Char.ext; apply UInt32.ext; exact h

theorem lowerChar_toNat (c : Char) :
    (lowerChar c).toNat =
      if 65 ≤ c.toNat ∧ c.toNat ≤ 90 then c.toNat + 32 else c.toNat := by
  unfold lowerChar
  split
  · rename_i h
    have hv : (c.toNat + 32).isValidChar := by
      left
      have : c.toNat ≤ 90 := h.2
      omega
    unfold Char.ofNat
    rw [dif_pos hv]
    simp [Char.ofNatAux, Char.toNat, UInt32.toNat, BitVec.toNat_ofNatLt]
  · rfl

theorem lowerChar_idem (c : Char) : lowerChar (lowerChar c) = lowerChar c := by
  apply char_eq_of_toNat
  rw [lowerChar_toNat (lowerChar c), lowerChar_toNat c]
  by_cases h : 65 ≤ c.toNat ∧ c.toNat ≤ 90
  · rw [if_pos h, if_neg (by omega)]
  · rw [if_neg h, if_neg h]

theorem lowerChar_fixed {c : Char} (h : ¬(65 ≤ c.toNat ∧ c.toNat ≤ 90)) :
    lowerChar c = c := by
  unfold lowerChar
  simp [h]

theorem isSchemeChar_lowerChar {c : Char} (h : isSchemeChar c = true) :
    isSchemeChar (lowerChar c) = true := by
  simp only [isSchemeChar, isAlphaN, isDigitN, Bool.or_eq_true,
    Bool.and_eq_true, decide_eq_true_eq] at h ⊢
  rw [lowerChar_toNat c]
  split <;> omega

theorem isHostChar_lowerChar {c : Char} (h : isHostChar c = true) :
    isHostChar (lowerChar c) = true := by
  simp only [isHostChar, isAlphaN, isDigitN, Bool.or_eq_true,
    Bool.and_eq_true, decide_eq_true_eq] at h ⊢
  rw [lowerChar_toNat c]
  split <;> omega

theorem lowerChar_fixed_of_lowered {c : Char} (h : ¬ (65 ≤ c.toNat ∧ c.toNat ≤ 90)) :
    lowerChar c = c := lowerChar_fixed h

theorem lowerChar_lowered_of_host {c : Char} :
    lowerChar (lowerChar c) = lowerChar c := lowerChar_idem c

theorem isAlphaN_lowerChar {c : Char} (h : isAlphaN c = true) :
    isAlphaN (lowerChar c) = true := by
  simp only [isAlphaN, Bool.or_eq_true, Bool.and_eq_true, decide_eq_true_eq] at h ⊢
  rw [lowerChar_toNat c]
  split <;> omega

theorem isHostChar_not_stops {c : Char} (h : isHostChar c = true) :
    isAuthStop c = false ∧ isQueryStop c = false ∧ isHashStop c = false := by
  simp only [isHostChar, isAlphaN, isDigitN, Bool.or_eq_true, Bool.and_eq_true,
    decide_eq_true_eq] at h
  simp only [isAuthStop, isQueryStop, isHashStop, Bool.or_eq_false_iff,
    decide_eq_false_iff_not]
  omega

theorem isHostChar_printable {c : Char} (h : isHostChar c = true) :
    32 < c.toNat := by
  simp only [isHostChar, isAlphaN, isDigitN, Bool.or_eq_true, Bool.and_eq_true,
    decide_eq_true_eq] at h
  omega

theorem isSchemeChar_printable {c : Char} (h : isSchemeChar c = true) :
    32 < c.toNat := by
  simp only [isSchemeChar, isAlphaN, isDigitN, Bool.or_eq_true, Bool.and_eq_true,
    decide_eq_true_eq] at h
  omega

theorem lowerChar_printable {c : Char} (h : 32 < c.toNat) :
    32 < (lowerChar c).toNat := by
  rw [lowerChar_toNat c]
  split <;> omega

theorem isSchemeChar_not_colon {c : Char} (h : isSchemeChar c = true) :
    c ≠ ':' := by
  intro hc
  subst hc
  simp [isSchemeChar, isAlphaN, isDigitN] at h

/-! ### List-of-characters utilities -/

/-- Split a character list at the first character satisfying `p`; the stop
character (if any) starts the second component. -/
def takeUntil (p : Char → Bool) : List Char → List Char × List Char
  | [] => ([], [])
  | c :: cs =>
    if p c then ([], c :: cs)
    else
      let r := takeUntil p cs
      (c :: r.1, r.2)

theorem takeUntil_append_eq (p : Char → Bool) (a b : List Char)
    (ha : ∀ c ∈ a, p c = false)
    (hb : b = [] ∨ ∃ d bs, b = d :: bs ∧ p d = true) :
    takeUntil p (a ++ b) = (a, b) := by
  induction a with
  | nil =>
    rcases hb with hb | ⟨d, bs, hb, hd⟩
    · simp [hb, takeUntil]
    · simp [hb, takeUntil, hd]
  | cons c cs ih =>
    have hc : p c = false := ha c (by simp)
    simp only [List.cons_append, takeUntil, hc, Bool.false_eq_true, if_false,
      List.append_eq]
    rw [ih (fun x hx => ha x (by simp [hx]))]

theorem takeUntil_fst_all (p : Char → Bool) (l : List Char) :
    ∀ c ∈ (takeUntil p l).1, p c = false := by
  induction l with
  | nil => simp [takeUntil]
  | cons c cs ih =>
    by_cases hc : p c
    · simp [takeUntil, hc]
    · simp only [Bool.not_eq_true] at hc
      simp only [takeUntil, hc, Bool.false_eq_true, if_false]
      intro x hx
      rcases List.mem_cons.mp hx with hx | hx
      · subst hx; exact hc
      · exact ih x hx

theorem takeUntil_snd_shape (p : Char → Bool) (l : List Char) :
    (takeUntil p l).2 = [] ∨
      ∃ d bs, (takeUntil p l).2 = d :: bs ∧ p d = true := by
  induction l with
  | nil => simp [takeUntil]
  | cons c cs ih =>
    by_cases hc : p c
    · right; exact ⟨c, cs, by simp [takeUntil, hc], hc⟩
    · simp only [Bool.not_eq_true] at hc
      simpa [takeUntil, hc] using ih

theorem takeUntil_append_parts (p : Char → Bool) (l : List Char) :
    (takeUntil p l).1 ++ (takeUntil p l).2 = l := by
  induction l with
  | nil => simp [takeUntil]
  | cons c cs ih =>
    by_cases hc : p c
    · simp [takeUntil, hc]
    · simp only [Bool.not_eq_true] at hc
      simp [takeUntil, hc, ih]

theorem takeUntil_fst_subset (p : Char → Bool) (l : List Char) :
    ∀ c ∈ (takeUntil p l).1, c ∈ l := by
  intro c hc
  have := takeUntil_append_parts p l
  rw [← this]
  exact List.mem_append_left _ hc

theorem takeUntil_snd_subset (p : Char → Bool) (l : List Char) :
    ∀ c ∈ (takeUntil p l).2, c ∈ l := by
  intro c hc
  have := takeUntil_append_parts p l
  rw [← this]
  exact List.mem_append_right _ hc

/-- Split a list at the first `:` provided all preceding characters are
scheme characters; returns the raw scheme and the remainder. -/
def schemeSplit : List Char → Option (List Char × List Char)
  | [] => none
  | c :: cs =>
    if c = ':' then some ([], cs)
    else if isSchemeChar c then
      match schemeSplit cs with
      | some r => some (c :: r.1, r.2)
      | none => none
    else none

theorem schemeSplit_append (sch rest : List Char)
    (h : ∀ c ∈ sch, isSchemeChar c = true) :
    schemeSplit (sch ++ ':' :: rest) = some (sch, rest) := by
  induction sch with
  | nil => simp [schemeSplit]
  | cons c cs ih =>
    have hc : isSchemeChar c = true := h c (by simp)
    have hne : ¬ c = ':' := isSchemeChar_not_colon hc
    simp only [List.cons_append, schemeSplit, if_neg hne, hc, if_true,
      List.append_eq]
    rw [ih (fun x hx => h x (by simp [hx]))]

theorem schemeSplit_eq (l : List Char) (sch rest : List Char)
    (h : schemeSplit l = some (sch, rest)) :
    l = sch ++ ':' :: rest ∧ ∀ c ∈ sch, isSchemeChar c = true := by
  induction l generalizing sch rest with
  | nil => simp [schemeSplit] at h
  | cons c cs ih =>
    by_cases hc : c = ':'
    · subst hc
      simp only [schemeSplit, if_pos rfl, Option.some_inj, Prod.mk.injEq] at h
      obtain ⟨rfl, rfl⟩ := h
      simp
    · simp only [schemeSplit, if_neg hc] at h
      by_cases hsc : isSchemeChar c
      · simp only [hsc, if_true] at h
        cases hr : schemeSplit cs with
        | none => rw [hr] at h; simp at h
        | some r =>
          obtain ⟨r1, r2⟩ := r
          rw [hr] at h
          simp only [Option.some_inj, Prod.mk.injEq] at h
          obtain ⟨rfl, rfl⟩ := h
          have := ih r1 r2 hr
          refine ⟨by simp [this.1], ?_⟩
          intro x hx
          rcases List.mem_cons.mp hx with hx | hx
          · subst hx; exact hsc
          · exact this.2 x hx
      · simp [hsc] at h

/-- Prefix test on character lists. -/
def isPre : List Char → List Char → Bool
  | [], _ => true
  | _ :: _, [] => false
  | p :: ps, c :: cs => p = c && isPre ps cs

/-- Substring test on character lists (JavaScript `String.prototype.includes`). -/
def subSearch (pat : List Char) : List Char → Bool
  | [] => isPre pat []
  | c :: cs => isPre pat (c :: cs) || subSearch pat cs

/-- Model of JavaScript `s.includes(pat)`. -/
def includesStr (s pat : String) : Bool := subSearch pat.data s.data

/-- Model of JavaScript `s.startsWith(pat)`. -/
def startsWithStr (s pat : String) : Bool := isPre pat.data s.data

/-! ### Model of the WHATWG `URL` platform builtin

The crawler relies on `new URL(...)` (with and without a base), on the
`hostname`, `pathname` and `href` getters, and on clearing `search` and
`hash`.  `UrlObj` is the parsed record; components keep the serialised
delimiters (`search` is `""` or starts with `?`; `hash` is `""` or starts
with `#`), so clearing a component is setting it to `""`, exactly as the
`urlObj.search = ""` setter behaves. -/

structure UrlObj where
  scheme : String
  host : String
  pathname : String
  search : String
  hash : String
deriving DecidableEq

/-- Serialisation at character-list level: non-special URLs (empty host)
serialise as `scheme:path...`, URLs with an authority as
`scheme://host...`. -/
def UrlObj.hrefData (u : UrlObj) : List Char :=
  if u.host.data = [] then
    u.scheme.data ++ ':' :: (u.pathname.data ++ u.search.data ++ u.hash.data)
  else
    u.scheme.data ++ ':' :: '/' :: '/' ::
      (u.host.data ++ u.pathname.data ++ u.search.data ++ u.hash.data)

/-- Model of the `href` getter. -/
def UrlObj.href (u : UrlObj) : String := ⟨u.hrefData⟩

/-- Schemes the model treats as special (authority-carrying).  `file` is
left out: the crawler never produces it. -/
def isSpecialScheme (l : List Char) : Bool :=
  l = "http".data || l = "https".data || l = "ws".data ||
    l = "wss".data || l = "ftp".data

/-- Split the query and the fragment off the tail that follows the path. -/
def splitSearchHash (l : List Char) : List Char × List Char :=
  match l with
  | '?' :: _ => takeUntil isHashStop l
  | _ => ([], l)

/-- Parse `rest` (everything after `scheme:`) for a special scheme: requires
`//`, then an authority that must be a valid host (the model has no ports and
no userinfo), then path, query, fragment. -/
def parseSpecial (scheme : List Char) (rest : List Char) : Option UrlObj :=
  match rest with
  | '/' :: '/' :: rest2 =>
    let auth := takeUntil isAuthStop rest2
    if auth.1 ≠ [] ∧ auth.1.all isHostChar then
      let host := auth.1.map lowerChar
      let path := takeUntil isQueryStop auth.2
      let pathname := if path.1 = [] then ['/'] else path.1
      let sh := splitSearchHash path.2
      some ⟨⟨scheme⟩, ⟨host⟩, ⟨pathname⟩, ⟨sh.1⟩, ⟨sh.2⟩⟩
    else none
  | _ => none

/-- Parse `rest` for a non-special scheme: a cannot-be-a-base URL whose path
is everything up to the query or fragment. -/
def parseNonSpecial (scheme : List Char) (rest : List Char) : Option UrlObj :=
  let path := takeUntil isQueryStop rest
  let sh := splitSearchHash path.2
  some ⟨⟨scheme⟩, "", ⟨path.1⟩, ⟨sh.1⟩, ⟨sh.2⟩⟩

/-- Dispatch on the scheme-split of the input: a scheme whose first
character is a letter is lowercased and sent to the scheme-specific parse. -/
def parseSchemed : Option (List Char × List Char) → Option UrlObj
  | some (c :: sch, rest) =>
    if isAlphaN c then
      let scheme := (c :: sch).map lowerChar
      if isSpecialScheme scheme then parseSpecial scheme rest
      else parseNonSpecial scheme rest
    else none
  | _ => none

/-- Parse an absolute URL from pre-processed characters. -/
def parseChars (l : List Char) : Option UrlObj := parseSchemed (schemeSplit l)

/-- WHATWG input pre-processing: remove every tab/LF/CR, trim C0 controls
and spaces from both ends. -/
def preprocess (s : String) : List Char :=
  (((s.data.filter (fun c => !(isTabNL c))).dropWhile isSpaceC0).reverse.dropWhile
    isSpaceC0).reverse

/-- The model rejects inputs that still contain control or space characters
after pre-processing (a real parser would percent-encode some of them). -/
def allPrintable (l : List Char) : Bool := l.all (fun c => 32 < c.toNat)

/-- Model of `new URL(s)` (no base): absolute parse. -/
def parseAbs (s : String) : Option UrlObj :=
  let l := preprocess s
  if allPrintable l then parseChars l else none

/-- The directory part of a path: its prefix up to and including the last
`/`. -/
def dirOf : List Char → List Char
  | [] => []
  | c :: cs => if '/' ∈ cs then c :: dirOf cs else if c = '/' then ['/'] else []

/-- Resolve a relative reference `l` against a base `b` (which must carry an
authority, else the base cannot be a base). -/
def resolveRel (b : UrlObj) (l : List Char) : Option UrlObj :=
  if b.host.data = [] then none
  else match l with
  | '/' :: '/' :: rest => parseSpecial b.scheme.data ('/' :: '/' :: rest)
  | '/' :: rest =>
    let path := takeUntil isQueryStop ('/' :: rest)
    let sh := splitSearchHash path.2
    some { b with pathname := ⟨path.1⟩, search := ⟨sh.1⟩, hash := ⟨sh.2⟩ }
  | '?' :: _ =>
    let sh := splitSearchHash l
    some { b with search := ⟨sh.1⟩, hash := ⟨sh.2⟩ }
  | '#' :: _ => some { b with hash := ⟨l⟩ }
  | [] => some { b with hash := "" }
  | _ =>
    let path := takeUntil isQueryStop l
    let sh := splitSearchHash path.2
    some { b with pathname := ⟨dirOf b.pathname.data ++ path.1⟩,
                  search := ⟨sh.1⟩, hash := ⟨sh.2⟩ }

/-- Whether a scheme-split result begins with a letter. -/
def schemedHead : Option (List Char × List Char) → Bool
  | some (c :: _, _) => isAlphaN c
  | _ => false

/-- Whether pre-processed input begins with a syntactically valid scheme
(letter first, then scheme characters, then `:`). -/
def hasScheme (l : List Char) : Bool := schemedHead (schemeSplit l)

/-- Model of `new URL(link, baseUrl)`: the base string is parsed first (an
invalid base throws even for an absolute link), then the link is parsed
absolutely if it carries a scheme and resolved against the base otherwise. -/
def newURL (link baseUrl : String) : Option UrlObj :=
  match parseAbs baseUrl with
  | none => none
  | some b =>
    let l := preprocess link
    if allPrintable l then
      if hasScheme l then parseChars l else resolveRel b l
    else none

/-! ### The crawler's URL helpers (closures of `getRoutesFromPage`) -/

/-- Model of source `normalizeUrl` (lines 32-53): reject empty links and
non-navigable schemes, else resolve against the base, clear `search` and
`hash`, and return the `href`; any parse failure yields `""`. -/
def normalizeUrl (baseUrl link : String) : String :=
  if link = "" || startsWithStr link "javascript:" || startsWithStr link "#" ||
      startsWithStr link "mailto:" || startsWithStr link "tel:" ||
      startsWithStr link "data:" || startsWithStr link "blob:" then ""
  else
    match newURL link baseUrl with
    | none => ""
    | some urlObj => ({ urlObj with search := "", hash := "" } : UrlObj).href

/-- Model of `pathname.replace(/\/$/, "")`: drop one trailing slash. -/
def stripTrailingSlash (s : String) : String :=
  if s.data.getLast? = some '/' then ⟨s.data.dropLast⟩ else s

/-- Model of source `getPathFromUrl` (lines 55-62): the pathname without a
trailing slash (except the root `/`); an unparsable URL is returned as is. -/
def getPathFromUrl (url : String) : String :=
  match parseAbs url with
  | none => url
  | some urlObj =>
    if urlObj.pathname = "/" then "/" else stripTrailingSlash urlObj.pathname

/-- Model of source `isValidUrl` (lines 64-71): the hostname must equal the
crawl's base domain exactly. -/
def isValidUrl (url baseDomain : String) : Bool :=
  match parseAbs url with
  | some urlObj => urlObj.host = baseDomain
  | none => false

/-- Model of lines 218-219: prefix `https://` unless the input starts with
`http`, then parse; `none` models the `new URL` constructor throwing. -/
def parseStart (url : String) : Option UrlObj :=
  parseAbs (if startsWithStr url "http" then url else "https://" ++ url)

/-! ### Canonical form of parsed URLs and the parse/serialise roundtrip -/

/-- Canonical scheme: nonempty, letter-first, scheme characters, already
lowercased. -/
def CanonScheme (l : List Char) : Prop :=
  (∃ c cs, l = c :: cs ∧ isAlphaN c = true) ∧
    ∀ c ∈ l, isSchemeChar c = true ∧ lowerChar c = c

/-- Canonical host: nonempty, host characters, already lowercased. -/
def CanonHost (l : List Char) : Prop :=
  l ≠ [] ∧ ∀ c ∈ l, isHostChar c = true ∧ lowerChar c = c

/-- Canonical path characters: printable and free of `?` and `#`. -/
def CanonPath (l : List Char) : Prop :=
  ∀ c ∈ l, isQueryStop c = false ∧ 32 < c.toNat

/-- Canonical query: empty, or `?`-led, printable, free of `#`. -/
def CanonSearch (l : List Char) : Prop :=
  l = [] ∨ (∃ cs, l = '?' :: cs ∧ ∀ c ∈ l, isHashStop c = false ∧ 32 < c.toNat)

/-- Canonical fragment: empty, or `#`-led and printable. -/
def CanonHash (l : List Char) : Prop :=
  l = [] ∨ ∃ cs, l = '#' :: cs ∧ ∀ c ∈ l, 32 < c.toNat

/-- Canonical URL record: what every parse in the model produces, and
exactly what makes its `href` parse back to itself. -/
def Canon (u : UrlObj) : Prop :=
  CanonScheme u.scheme.data ∧
    ((u.host.data = [] ∧ isSpecialScheme u.scheme.data = false ∧
        CanonPath u.pathname.data) ∨
      (CanonHost u.host.data ∧ isSpecialScheme u.scheme.data = true ∧
        (∃ cs, u.pathname.data = '/' :: cs) ∧ CanonPath u.pathname.data)) ∧
    CanonSearch u.search.data ∧ CanonHash u.hash.data

theorem map_fixed {f : Char → Char} {l : List Char}
    (h : ∀ c ∈ l, f c = c) : l.map f = l := by
  induction l with
  | nil => rfl
  | cons c cs ih =>
    simp only [List.map_cons, h c (by simp), ih (fun x hx => h x (by simp [hx]))]

theorem dropWhile_false {p : Char → Bool} {l : List Char}
    (h : ∀ c ∈ l, p c = false) : l.dropWhile p = l := by
  cases l with
  | nil => rfl
  | cons c cs => simp [List.dropWhile_cons, h c (by simp)]

theorem preprocess_id {l : List Char} (h : ∀ c ∈ l, 32 < c.toNat) :
    preprocess ⟨l⟩ = l := by
  unfold preprocess
  have h1 : (String.mk l).data.filter (fun c => !(isTabNL c)) = l := by
    apply List.filter_eq_self.mpr
    intro c hc
    have := h c hc
    simp only [isTabNL, Bool.not_eq_true', Bool.or_eq_false_iff,
      decide_eq_false_iff_not]
    omega
  rw [h1]
  have h2 : l.dropWhile isSpaceC0 = l := by
    apply dropWhile_false
    intro c hc
    have := h c hc
    simp only [isSpaceC0, decide_eq_false_iff_not]
    omega
  rw [h2]
  have h3 : l.reverse.dropWhile isSpaceC0 = l.reverse := by
    apply dropWhile_false
    intro c hc
    have := h c (by simpa using hc)
    simp only [isSpaceC0, decide_eq_false_iff_not]
    omega
  rw [h3, List.reverse_reverse]

theorem searchHash_shape {s h : List Char}
    (hs : CanonSearch s) (hh : CanonHash h) :
    s ++ h = [] ∨ ∃ d bs, s ++ h = d :: bs ∧ isQueryStop d = true := by
  rcases hs with hs | ⟨ss, hs, _⟩
  · subst hs
    rcases hh with hh | ⟨hs2, hh, _⟩
    · left; simp [hh]
    · right; exact ⟨'#', hs2, by simp [hh], by simp [isHashStop, isQueryStop]⟩
  · subst hs
    right; exact ⟨'?', ss ++ h, by simp, by simp [isQueryStop]⟩

theorem splitSearchHash_append {s h : List Char}
    (hs : CanonSearch s) (hh : CanonHash h) :
    splitSearchHash (s ++ h) = (s, h) := by
  rcases hs with hs | ⟨ss, hs, hall⟩
  · subst hs
    rcases hh with hh | ⟨hs2, hh, _⟩
    · subst hh; rfl
    · subst hh
      simp [splitSearchHash]
  · subst hs
    simp only [List.cons_append, splitSearchHash]
    have hres := takeUntil_append_eq isHashStop ('?' :: ss) h
      (fun c hc => (hall c hc).1)
      (by
        rcases hh with hh | ⟨hs2, hh, _⟩
        · left; exact hh
        · right; exact ⟨'#', hs2, hh, by simp [isHashStop]⟩)
    simpa using hres

theorem canonPath_shape {path : List Char} (hpath : ∃ cs, path = '/' :: cs) :
    path = [] ∨ ∃ d bs, path = d :: bs ∧ isAuthStop d = true := by
  obtain ⟨cs, rfl⟩ := hpath
  right; exact ⟨'/', cs, rfl, by simp [isAuthStop]⟩

/-- Roundtrip, authority form: the serialisation of canonical special-URL
components parses back to exactly those components. -/
theorem parseChars_special_append
    (scheme host path search hash : List Char)
    (hsch : CanonScheme scheme) (hhost : CanonHost host)
    (hsp : isSpecialScheme scheme = true)
    (hpath : ∃ cs, path = '/' :: cs) (hcp : CanonPath path)
    (hs : CanonSearch search) (hh : CanonHash hash) :
    parseChars
        (scheme ++ ':' :: '/' :: '/' :: (host ++ (path ++ (search ++ hash)))) =
      some ⟨⟨scheme⟩, ⟨host⟩, ⟨path⟩, ⟨search⟩, ⟨hash⟩⟩ := by
  obtain ⟨⟨c, cs, hcons, hca⟩, hall⟩ := hsch
  unfold parseChars
  rw [schemeSplit_append scheme _ (fun x hx => (hall x hx).1)]
  subst hcons
  rw [parseSchemed]
  rw [if_pos hca]
  have hmap : (c :: cs).map lowerChar = c :: cs :=
    map_fixed (fun x hx => (hall x hx).2)
  simp only [hmap, hsp, if_true]
  simp only [parseSpecial]
  rw [takeUntil_append_eq isAuthStop host (path ++ (search ++ hash))
    (fun x hx => (isHostChar_not_stops (hhost.2 x hx).1).1)
    (by
      obtain ⟨ps, hps⟩ := hpath
      subst hps
      right
      exact ⟨'/', ps ++ (search ++ hash), by simp, by simp [isAuthStop]⟩)]
  have hhostne : host ≠ [] := hhost.1
  have hhostall : host.all isHostChar = true :=
    List.all_eq_true.mpr (fun x hx => (hhost.2 x hx).1)
  have hq := takeUntil_append_eq isQueryStop path (search ++ hash)
    (fun x hx => (hcp x hx).1) (searchHash_shape hs hh)
  have hpathne : (path = []) ↔ False := by
    obtain ⟨ps, hps⟩ := hpath
    subst hps
    simp
  simp only [ne_eq, hhostne, not_false_eq_true, hhostall, and_self, if_true,
    true_and, hq, hpathne, if_false,
    map_fixed (fun x hx => (hhost.2 x hx).2),
    splitSearchHash_append hs hh]

/-- Roundtrip, cannot-be-a-base form. -/
theorem parseChars_nonSpecial_append
    (scheme path search hash : List Char)
    (hsch : CanonScheme scheme)
    (hsp : isSpecialScheme scheme = false)
    (hcp : CanonPath path)
    (hs : CanonSearch search) (hh : CanonHash hash) :
    parseChars (scheme ++ ':' :: (path ++ (search ++ hash))) =
      some ⟨⟨scheme⟩, "", ⟨path⟩, ⟨search⟩, ⟨hash⟩⟩ := by
  obtain ⟨⟨c, cs, hcons, hca⟩, hall⟩ := hsch
  unfold parseChars
  rw [schemeSplit_append scheme _ (fun x hx => (hall x hx).1)]
  subst hcons
  rw [parseSchemed]
  rw [if_pos hca]
  have hmap : (c :: cs).map lowerChar = c :: cs :=
    map_fixed (fun x hx => (hall x hx).2)
  simp only [hmap, hsp, if_false, Bool.false_eq_true]
  simp only [parseNonSpecial]
  have hq := takeUntil_append_eq isQueryStop path (search ++ hash)
    (fun x hx => (hcp x hx).1) (searchHash_shape hs hh)
  simp only [hq, splitSearchHash_append hs hh]

/-- Every printable, canonical `UrlObj` is recovered exactly by parsing its
serialisation. -/
theorem parseChars_hrefData {u : UrlObj} (h : Canon u) :
    parseChars u.hrefData = some u := by
  obtain ⟨scheme, host, pathname, search, hash⟩ := u
  obtain ⟨schemeD⟩ := scheme
  obtain ⟨hostD⟩ := host
  obtain ⟨pathD⟩ := pathname
  obtain ⟨searchD⟩ := search
  obtain ⟨hashD⟩ := hash
  obtain ⟨hsch, hmid, hs, hh⟩ := h
  rcases hmid with ⟨hhost0, hsp, hcp⟩ | ⟨hhost, hsp, hpath, hcp⟩
  · unfold UrlObj.hrefData
    simp only at hhost0 hsp hcp ⊢
    rw [if_pos hhost0, hhost0]
    have := parseChars_nonSpecial_append schemeD pathD searchD hashD hsch hsp
      hcp hs hh
    simpa [List.append_assoc] using this
  · unfold UrlObj.hrefData
    simp only at hhost hsp hpath hcp ⊢
    rw [if_neg hhost.1]
    have := parseChars_special_append schemeD hostD pathD searchD hashD hsch
      hhost hsp hpath hcp hs hh
    simpa [List.append_assoc] using this

/-- Printability of every serialised canonical URL. -/
theorem hrefData_printable {u : UrlObj} (h : Canon u) :
    ∀ c ∈ u.hrefData, 32 < c.toNat := by
  obtain ⟨hsch, hmid, hs, hh⟩ := h
  have hschp : ∀ c ∈ u.scheme.data, 32 < c.toNat :=
    fun c hc => isSchemeChar_printable (hsch.2 c hc).1
  have hsp : ∀ c ∈ u.search.data, 32 < c.toNat := by
    rcases hs with hs | ⟨ss, hs, hall⟩
    · rw [hs]; simp
    · intro c hc; exact (hall c hc).2
  have hhp : ∀ c ∈ u.hash.data, 32 < c.toNat := by
    rcases hh with hh | ⟨hs2, hh, hall⟩
    · rw [hh]; simp
    · intro c hc; exact hall c hc
  rcases hmid with ⟨hhost0, _, hcp⟩ | ⟨hhost, _, _, hcp⟩
  · unfold UrlObj.hrefData
    rw [if_pos hhost0]
    intro c hc
    rcases List.mem_append.mp hc with hc | hc
    · exact hschp c hc
    rcases List.mem_cons.mp hc with hc | hc
    · subst hc; decide
    rcases List.mem_append.mp hc with hc | hc
    · rcases List.mem_append.mp hc with hc | hc
      · exact (hcp c hc).2
      · exact hsp c hc
    · exact hhp c hc
  · unfold UrlObj.hrefData
    rw [if_neg hhost.1]
    intro c hc
    rcases List.mem_append.mp hc with hc | hc
    · exact hschp c hc
    rcases List.mem_cons.mp hc with hc | hc
    · subst hc; decide
    rcases List.mem_cons.mp hc with hc | hc
    · subst hc; decide
    rcases List.mem_cons.mp hc with hc | hc
    · subst hc; decide
    rcases List.mem_append.mp hc with hc | hc
    · rcases List.mem_append.mp hc with hc | hc
      · rcases List.mem_append.mp hc with hc | hc
        · exact isHostChar_printable (hhost.2 c hc).1
        · exact (hcp c hc).2
      · exact hsp c hc
    · exact hhp c hc

/-- Model of `new URL(u.href)` recovering `u`: the full roundtrip through
pre-processing. -/
theorem parseAbs_href {u : UrlObj} (h : Canon u) :
    parseAbs u.href = some u := by
  unfold parseAbs UrlObj.href
  have hp := hrefData_printable h
  rw [preprocess_id hp]
  have hall : allPrintable u.hrefData = true := by
    unfold allPrintable
    exact List.all_eq_true.mpr (fun c hc => by simpa using hp c hc)
  simp only [hall, if_true]
  exact parseChars_hrefData h

theorem splitSearchHash_canon {l : List Char}
    (hl : ∀ c ∈ l, 32 < c.toNat)
    (hshape : l = [] ∨ ∃ d bs, l = d :: bs ∧ isQueryStop d = true) :
    CanonSearch (splitSearchHash l).1 ∧ CanonHash (splitSearchHash l).2 := by
  rcases hshape with rfl | ⟨d, bs, rfl, hd⟩
  · exact ⟨Or.inl rfl, Or.inl rfl⟩
  · simp only [isQueryStop, Bool.or_eq_true, decide_eq_true_eq] at hd
    rcases hd with hd | hd
    · have hdq : d = '?' := char_eq_of_toNat hd
      subst hdq
      have hsfst : (splitSearchHash ('?' :: bs)).1 =
          (takeUntil isHashStop ('?' :: bs)).1 := rfl
      have hssnd : (splitSearchHash ('?' :: bs)).2 =
          (takeUntil isHashStop ('?' :: bs)).2 := rfl
      constructor
      · right
        have hhead : (takeUntil isHashStop ('?' :: bs)).1 =
            '?' :: (takeUntil isHashStop bs).1 := by
          simp [takeUntil, isHashStop]
        refine ⟨(takeUntil isHashStop bs).1, by rw [hsfst, hhead], ?_⟩
        intro c hc
        rw [hsfst] at hc
        refine ⟨takeUntil_fst_all _ _ c hc, ?_⟩
        exact hl c (takeUntil_fst_subset _ _ c hc)
      · rw [hssnd]
        rcases takeUntil_snd_shape isHashStop ('?' :: bs) with hsh | ⟨e, es, hsh, he⟩
        · left; exact hsh
        · right
          have he' : e = '#' := by
            simp only [isHashStop, decide_eq_true_eq] at he
            exact char_eq_of_toNat he
          subst he'
          refine ⟨es, hsh, ?_⟩
          intro c hc
          exact hl c (takeUntil_snd_subset _ _ c hc)
    · have hdh : d = '#' := char_eq_of_toNat hd
      subst hdh
      have hsplit : splitSearchHash ('#' :: bs) = ([], '#' :: bs) := rfl
      rw [hsplit]
      exact ⟨Or.inl rfl, Or.inr ⟨bs, rfl, hl⟩⟩

theorem parseSpecial_canon {scheme rest : List Char} {u : UrlObj}
    (hsch : CanonScheme scheme) (hsp : isSpecialScheme scheme = true)
    (hrest : ∀ c ∈ rest, 32 < c.toNat)
    (h : parseSpecial scheme rest = some u) : Canon u := by
  unfold parseSpecial at h
  split at h
  case h_2 => exact absurd h (by simp)
  case h_1 rest2 =>
    simp only [ne_eq] at h
    split at h
    case isFalse => exact absurd h (by simp)
    case isTrue hcond =>
      have hrest2 : ∀ c ∈ rest2, 32 < c.toNat := by
        intro c hc
        exact hrest c (by simp [hc])
      simp only [Option.some_inj] at h
      subst h
      have hauth1 : ∀ c ∈ (takeUntil isAuthStop rest2).1, c ∈ rest2 :=
        takeUntil_fst_subset _ _
      have hauth2 : ∀ c ∈ (takeUntil isAuthStop rest2).2, c ∈ rest2 :=
        takeUntil_snd_subset _ _
      have hallhost : ∀ c ∈ (takeUntil isAuthStop rest2).1, isHostChar c = true :=
        fun c hc => List.all_eq_true.mp hcond.2 c hc
      refine ⟨hsch, Or.inr ⟨?_, hsp, ?_, ?_⟩, ?_, ?_⟩
      · constructor
        · simp only [ne_eq, List.map_eq_nil_iff]
          exact hcond.1
        · intro c hc
          obtain ⟨y, hy, rfl⟩ := List.mem_map.mp hc
          exact ⟨isHostChar_lowerChar (hallhost y hy), lowerChar_idem y⟩
      · by_cases hp0 : (takeUntil isQueryStop (takeUntil isAuthStop rest2).2).1 = []
        · simp only [hp0, if_true]
          exact ⟨[], rfl⟩
        · simp only [hp0, if_false]
          rcases takeUntil_snd_shape isAuthStop rest2 with hsh | ⟨d, bs, hsh, hd⟩
          · rw [hsh] at hp0
            simp [takeUntil] at hp0
          · rw [hsh] at hp0 ⊢
            by_cases hdq : isQueryStop d
            · simp [takeUntil, hdq] at hp0
            · have hd47 : d = '/' := by
                simp only [isAuthStop, Bool.or_eq_true, decide_eq_true_eq] at hd
                simp only [isQueryStop, Bool.or_eq_true, decide_eq_true_eq,
                  not_or] at hdq
                apply char_eq_of_toNat
                have h47 : ('/' : Char).toNat = 47 := rfl
                omega
              subst hd47
              refine ⟨(takeUntil isQueryStop bs).1, ?_⟩
              simp [takeUntil, isQueryStop]
      · intro c hc
        by_cases hp0 : (takeUntil isQueryStop (takeUntil isAuthStop rest2).2).1 = []
        · simp only [hp0, if_true] at hc
          rcases List.mem_singleton.mp hc with rfl
          exact ⟨by decide, by decide⟩
        · simp only [hp0, if_false] at hc
          refine ⟨takeUntil_fst_all _ _ c hc, ?_⟩
          exact hrest2 c (hauth2 c (takeUntil_fst_subset _ _ c hc))
      · exact (splitSearchHash_canon
          (fun c hc => hrest2 c (hauth2 c (takeUntil_snd_subset _ _ c hc)))
          (takeUntil_snd_shape _ _)).1
      · exact (splitSearchHash_canon
          (fun c hc => hrest2 c (hauth2 c (takeUntil_snd_subset _ _ c hc)))
          (takeUntil_snd_shape _ _)).2

theorem parseNonSpecial_canon {scheme rest : List Char} {u : UrlObj}
    (hsch : CanonScheme scheme) (hsp : isSpecialScheme scheme = false)
    (hrest : ∀ c ∈ rest, 32 < c.toNat)
    (h : parseNonSpecial scheme rest = some u) : Canon u := by
  unfold parseNonSpecial at h
  simp only [Option.some_inj] at h
  subst h
  refine ⟨hsch, Or.inl ⟨rfl, hsp, ?_⟩, ?_, ?_⟩
  · intro c hc
    refine ⟨takeUntil_fst_all _ _ c hc, ?_⟩
    exact hrest c (takeUntil_fst_subset _ _ c hc)
  · exact (splitSearchHash_canon
      (fun c hc => hrest c (takeUntil_snd_subset _ _ c hc))
      (takeUntil_snd_shape _ _)).1
  · exact (splitSearchHash_canon
      (fun c hc => hrest c (takeUntil_snd_subset _ _ c hc))
      (takeUntil_snd_shape _ _)).2

theorem parseChars_canon {l : List Char} {u : UrlObj}
    (hl : ∀ c ∈ l, 32 < c.toNat)
    (h : parseChars l = some u) : Canon u := by
  unfold parseChars at h
  cases hsplit : schemeSplit l with
  | none => rw [hsplit] at h; simp [parseSchemed] at h
  | some r =>
    obtain ⟨sch, rest⟩ := r
    rw [hsplit] at h
    cases sch with
    | nil => simp [parseSchemed] at h
    | cons c cs =>
      rw [parseSchemed] at h
      split at h
      case isFalse => exact absurd h (by simp)
      case isTrue hca =>
        obtain ⟨hdecomp, hschemechars⟩ := schemeSplit_eq l (c :: cs) rest hsplit
        have hrest : ∀ x ∈ rest, 32 < x.toNat := by
          intro x hx
          exact hl x (by rw [hdecomp]; simp [hx])
        have hsch : CanonScheme ((c :: cs).map lowerChar) := by
          refine ⟨⟨lowerChar c, cs.map lowerChar, by simp,
            isAlphaN_lowerChar hca⟩, ?_⟩
          intro x hx
          obtain ⟨y, hy, rfl⟩ := List.mem_map.mp hx
          exact ⟨isSchemeChar_lowerChar (hschemechars y hy), lowerChar_idem y⟩
        by_cases hspec : isSpecialScheme ((c :: cs).map lowerChar)
        · simp only [hspec, if_true] at h
          exact parseSpecial_canon hsch hspec hrest h
        · simp only [Bool.not_eq_true] at hspec
          simp only [hspec, Bool.false_eq_true, if_false] at h
          exact parseNonSpecial_canon hsch hspec hrest h

theorem parseAbs_canon {s : String} {u : UrlObj}
    (h : parseAbs s = some u) : Canon u := by
  unfold parseAbs at h
  by_cases hall : allPrintable (preprocess s) = true
  · simp only [hall, if_true] at h
    exact parseChars_canon
      (fun c hc => by simpa using List.all_eq_true.mp hall c hc) h
  · simp only [Bool.not_eq_true] at hall
    simp only [hall, Bool.false_eq_true, if_false] at h
    exact absurd h (by simp)

theorem dirOf_subset : ∀ (p : List Char), ∀ c ∈ dirOf p, c ∈ p := by
  intro p
  induction p with
  | nil => simp [dirOf]
  | cons c cs ih =>
    intro x hx
    unfold dirOf at hx
    split at hx
    · rcases List.mem_cons.mp hx with rfl | hx
      · simp
      · simp [ih x hx]
    · split at hx
      · rcases List.mem_singleton.mp hx with rfl
        rename_i hc
        simp [hc]
      · simp at hx

theorem dirOf_head {cs0 : List Char} :
    ∃ ds, dirOf ('/' :: cs0) = '/' :: ds := by
  unfold dirOf
  split
  · exact ⟨dirOf cs0, rfl⟩
  · simp

theorem resolveRel_canon {b : UrlObj} {l : List Char} {u : UrlObj}
    (hb : Canon b) (hl : ∀ c ∈ l, 32 < c.toNat)
    (h : resolveRel b l = some u) : Canon u := by
  unfold resolveRel at h
  split at h
  · exact absurd h (by simp)
  rename_i hbne
  obtain ⟨hbsch, hbmid, hbs, hbh⟩ := hb
  rcases hbmid with ⟨hbhost0, _, _⟩ | ⟨hbhost, hbsp, hbpath, hbcp⟩
  · exact absurd hbhost0 hbne
  split at h
  · -- protocol-relative `//...`
    exact parseSpecial_canon hbsch hbsp hl h
  · -- path-absolute `/...`
    simp only [Option.some_inj] at h
    subst h
    refine ⟨hbsch, Or.inr ⟨hbhost, hbsp, ?_, ?_⟩, ?_, ?_⟩
    · simp only [takeUntil, isQueryStop]
      rw [if_neg (by decide)]
      exact ⟨_, rfl⟩
    · intro c hc
      refine ⟨takeUntil_fst_all _ _ c hc, ?_⟩
      exact hl c (takeUntil_fst_subset _ _ c hc)
    · exact (splitSearchHash_canon
        (fun c hc => hl c (takeUntil_snd_subset _ _ c hc))
        (takeUntil_snd_shape _ _)).1
    · exact (splitSearchHash_canon
        (fun c hc => hl c (takeUntil_snd_subset _ _ c hc))
        (takeUntil_snd_shape _ _)).2
  · -- query-only `?...`
    simp only [Option.some_inj] at h
    subst h
    refine ⟨hbsch, Or.inr ⟨hbhost, hbsp, hbpath, hbcp⟩, ?_, ?_⟩
    · exact (splitSearchHash_canon hl
        (Or.inr ⟨'?', _, rfl, by simp [isQueryStop]⟩)).1
    · exact (splitSearchHash_canon hl
        (Or.inr ⟨'?', _, rfl, by simp [isQueryStop]⟩)).2
  · -- fragment-only `#...`
    simp only [Option.some_inj] at h
    subst h
    exact ⟨hbsch, Or.inr ⟨hbhost, hbsp, hbpath, hbcp⟩, hbs,
      Or.inr ⟨_, rfl, hl⟩⟩
  · -- empty reference
    simp only [Option.some_inj] at h
    subst h
    exact ⟨hbsch, Or.inr ⟨hbhost, hbsp, hbpath, hbcp⟩, hbs, Or.inl rfl⟩
  · -- path-relative reference
    simp only [Option.some_inj] at h
    subst h
    refine ⟨hbsch, Or.inr ⟨hbhost, hbsp, ?_, ?_⟩, ?_, ?_⟩
    · obtain ⟨cs0, hcs0⟩ := hbpath
      rw [hcs0]
      obtain ⟨ds, hds⟩ := @dirOf_head cs0
      exact ⟨ds ++ (takeUntil isQueryStop l).1, by simp [hds]⟩
    · intro c hc
      rcases List.mem_append.mp hc with hc | hc
      · exact hbcp c (dirOf_subset _ c hc)
      · refine ⟨takeUntil_fst_all _ _ c hc, ?_⟩
        exact hl c (takeUntil_fst_subset _ _ c hc)
    · exact (splitSearchHash_canon
        (fun c hc => hl c (takeUntil_snd_subset _ _ c hc))
        (takeUntil_snd_shape _ _)).1
    · exact (splitSearchHash_canon
        (fun c hc => hl c (takeUntil_snd_subset _ _ c hc))
        (takeUntil_snd_shape _ _)).2

theorem newURL_canon {link baseUrl : String} {u : UrlObj}
    (h : newURL link baseUrl = some u) : Canon u := by
  unfold newURL at h
  cases hb : parseAbs baseUrl with
  | none => rw [hb] at h; exact absurd h (by simp)
  | some b =>
    rw [hb] at h
    by_cases hall : allPrintable (preprocess link) = true
    · simp only [hall, if_true] at h
      have hpr : ∀ c ∈ preprocess link, 32 < c.toNat :=
        fun c hc => by simpa using List.all_eq_true.mp hall c hc
      by_cases hsc : hasScheme (preprocess link) = true
      · simp only [hsc, if_true] at h
        exact parseChars_canon hpr h
      · simp only [Bool.not_eq_true] at hsc
        simp only [hsc, Bool.false_eq_true, if_false] at h
        exact resolveRel_canon (parseAbs_canon hb) hpr h
    · simp only [Bool.not_eq_true] at hall
      simp only [hall, Bool.false_eq_true, if_false] at h
      exact absurd h (by simp)

/-- Clearing query and fragment preserves canonical form. -/
theorem canon_strip {u : UrlObj} (h : Canon u) :
    Canon { u with search := "", hash := "" } := by
  obtain ⟨hsch, hmid, _, _⟩ := h
  exact ⟨hsch, hmid, Or.inl rfl, Or.inl rfl⟩

/-- The serialisation of a canonical URL is a nonempty string. -/
theorem href_ne_empty {u : UrlObj} (h : Canon u) : u.href ≠ "" := by
  obtain ⟨⟨⟨c, cs, hcons, _⟩, _⟩, _, _, _⟩ := h
  intro he
  have hd : u.hrefData = [] := congrArg String.data he
  unfold UrlObj.hrefData at hd
  split at hd <;> simp [hcons] at hd

/-- The serialisation of a canonical URL re-enters the absolute-parse
branch of `new URL`. -/
theorem hasScheme_hrefData {u : UrlObj} (h : Canon u) :
    hasScheme u.hrefData = true := by
  obtain ⟨⟨c, cs, hcons, hca⟩, hall⟩ := h.1
  unfold hasScheme UrlObj.hrefData
  split
  · rw [schemeSplit_append u.scheme.data _ (fun x hx => (hall x hx).1), hcons]
    simp [schemedHead, hca]
  · rw [schemeSplit_append u.scheme.data _ (fun x hx => (hall x hx).1), hcons]
    simp [schemedHead, hca]

/-- The serialisation of a canonical URL cannot begin with `#`. -/
theorem href_not_hash {u : UrlObj} (h : Canon u) :
    startsWithStr u.href "#" = false := by
  obtain ⟨⟨c, cs, hcons, hca⟩, hall⟩ := h.1
  unfold startsWithStr UrlObj.href
  have hnc : ('#' = c) = False := by
    simp only [eq_iff_iff, iff_false]
    intro hcc
    subst hcc
    simp [isAlphaN] at hca
  unfold UrlObj.hrefData
  split <;> (rw [hcons]; simp [isPre, hnc])

/-- Normalising the serialisation of a canonical, already-stripped URL (with
a parsable base and no rejected-scheme prefix) is the identity. -/
theorem normalizeUrl_fixed {w : UrlObj} {b2 : String}
    (hw : Canon w) (hws : w.search = "") (hwh : w.hash = "")
    (hb2 : ∃ b, parseAbs b2 = some b)
    (hj : startsWithStr w.href "javascript:" = false)
    (hm : startsWithStr w.href "mailto:" = false)
    (ht : startsWithStr w.href "tel:" = false)
    (hd : startsWithStr w.href "data:" = false)
    (hbl : startsWithStr w.href "blob:" = false) :
    normalizeUrl b2 w.href = w.href := by
  obtain ⟨b, hb2'⟩ := hb2
  unfold normalizeUrl
  rw [if_neg (by
    simp [href_ne_empty hw, hj, hm, ht, hd, hbl, href_not_hash hw])]
  have hpre : preprocess w.href = w.hrefData :=
    preprocess_id (hrefData_printable hw)
  have hall : allPrintable w.hrefData = true := by
    unfold allPrintable
    exact List.all_eq_true.mpr
      (fun c hc => by simpa using hrefData_printable hw c hc)
  have hnew : newURL w.href b2 = some w := by
    unfold newURL
    simp only [hb2', hpre, hall, if_true, hasScheme_hrefData hw]
    exact parseChars_hrefData hw
  have hstrip : ({ w with search := "", hash := "" } : UrlObj) = w := by
    obtain ⟨s1, s2, s3, s4, s5⟩ := w
    simp only at hws hwh
    rw [hws, hwh]
  simp only [hnew, hstrip]

/-! ### Data model of the crawler -/

/-- The unit of the result tree (source lines 5-11); `status` and `error`
are the optional fields of the TypeScript interface. -/
inductive RouteNode : Type where
  | mk : String → String → List RouteNode → Option Nat → Option String →
      RouteNode

/-- The `path` field. -/
def RouteNode.path : RouteNode → String
  | .mk p _ _ _ _ => p

/-- The `url` field. -/
def RouteNode.url : RouteNode → String
  | .mk _ u _ _ _ => u

/-- The `children` field. -/
def RouteNode.children : RouteNode → List RouteNode
  | .mk _ _ c _ _ => c

/-- The `status` field. -/
def RouteNode.status : RouteNode → Option Nat
  | .mk _ _ _ s _ => s

/-- The `error` field. -/
def RouteNode.error : RouteNode → Option String
  | .mk _ _ _ _ e => e

/-- Crawl options (source lines 13-18); absent fields take the defaults of
line 24.  `timeout` and `delay` only shape timing and are not observable in
the pure model. -/
structure CrawlOptions where
  maxDepth : Option Nat := none
  maxPages : Option Nat := none
  timeout : Option Nat := none
  delay : Option Nat := none

/-- A JavaScript value caught by a `catch (error)` handler: `message` is
present exactly when `error instanceof Error`. -/
structure JsThrown where
  message : Option String

/-- The diagnostic the handler at lines 207-214 derives from a thrown
value. -/
def jsMessage (e : JsThrown) : String := e.message.getD "Unknown error"

/-- What the crawler observes of a `fetch` `Response`: the status code, the
`content-type` header (`headers.get` may be null), and the outcome of
`response.text()` (which may itself throw). -/
structure Response where
  status : Nat
  contentType : Option String
  textResult : Except JsThrown String

/-- `Response.ok`: status in the 2xx range. -/
def Response.ok (r : Response) : Bool := 200 ≤ r.status && r.status ≤ 299

/-- The environment oracle: `fetchAttempt url i` is the outcome of the
`i`-th fetch attempt for `url` (`none` models the attempt throwing — a
network error or the abort fired by the timeout); `extractHrefs html` is
the list of `href` attribute values of `$("a[href]")` in document order. -/
structure World where
  fetchAttempt : String → Nat → Option Response
  extractHrefs : String → List String

/-- The mutable closure state of one `getRoutesFromPage` call: the visited
set (line 26) and the page counter (line 27), plus a ghost log of every URL
passed to `fetchWithRetry`, in order. -/
structure CrawlState where
  visited : List String
  pageCount : Nat
  fetched : List String

/-- The initial state of a crawl. -/
def initState : CrawlState := ⟨[], 0, []⟩

/-- Lines 128-129 (`visited.add`, `pageCount++`), plus the ghost record
that a fetch is issued for this URL. -/
def markVisited (currentUrl : String) (st : CrawlState) : CrawlState :=
  { visited := currentUrl :: st.visited,
    pageCount := st.pageCount + 1,
    fetched := st.fetched ++ [currentUrl] }

/-! ### The retrying fetcher (source lines 73-106) -/

/-- The `for (let i = 0; i <= retries; i++)` loop: an attempt that yields a
response returns it at once; a throw either ends the loop (`i === retries`,
line 101) or sleeps `1000 * (i + 1)` ms (line 102) and retries.  Returns
the result, the number of attempts made, and the list of back-off sleeps in
order. -/
def fetchAux (W : World) (url : String) (retries : Nat) (i : Nat) :
    Option Response × Nat × List Nat :=
  if _h : i ≤ retries then
    match W.fetchAttempt url i with
    | some r => (some r, i + 1, [])
    | none =>
      if _he : i = retries then (none, i + 1, [])
      else
        let rec' := fetchAux W url retries (i + 1)
        (rec'.1, rec'.2.1, 1000 * (i + 1) :: rec'.2.2)
  else (none, i, [])
termination_by retries + 1 - i
decreasing_by omega

/-- `fetchWithRetry` with its trace (attempt count and sleeps). -/
def fetchTrace (W : World) (url : String) (retries : Nat) :
    Option Response × Nat × List Nat :=
  fetchAux W url retries 0

/-- Model of source `fetchWithRetry` (lines 73-106): the response of the
first attempt that yields one, `none` after every attempt threw. -/
def fetchWithRetry (W : World) (url : String) (retries : Nat) :
    Option Response :=
  (fetchTrace W url retries).1

/-! ### The link extractor (source lines 171-181) -/

/-- One step of the `$("a[href]").each` loop (lines 173-181): skip falsy
hrefs (line 175), normalise against the current URL, and add same-domain
survivors to the `Set` (insertion order, duplicates collapsed). -/
def extractStep (currentUrl baseDomain : String) (links : List String)
    (href : String) : List String :=
  if href = "" then links
  else
    let normalizedUrl := normalizeUrl currentUrl href
    if normalizedUrl ≠ "" ∧ isValidUrl normalizedUrl baseDomain = true then
      if normalizedUrl ∈ links then links else links ++ [normalizedUrl]
    else links

/-- The link extractor: the set of distinct in-domain links of a page. -/
def extractLinks (W : World) (currentUrl baseDomain html : String) :
    List String :=
  (W.extractHrefs html).foldl (extractStep currentUrl baseDomain) []

/-! ### The crawl orchestrator (source lines 108-215)

`crawlPage` is the whole function; `crawlBody` is its `try` region (lines
135-206), whose `Except.error` is precisely a value thrown by
`response.text()` and caught at line 207; `crawlChildren` is the loop over
discovered links (lines 190-198), linearised left-to-right.  The extra
proof argument of `crawlBody` records that its caller already passed the
depth guard; it exists only for Lean's termination checker. -/

mutual

def crawlPage (W : World) (maxDepth maxPages : Nat) (baseDomain : String)
    (currentUrl : String) (depth : Nat) (st : CrawlState) :
    RouteNode × CrawlState :=
  let path := getPathFromUrl currentUrl
  if hguard : depth > maxDepth ∨ st.pageCount ≥ maxPages then
    (.mk path currentUrl [] none
      (some (if depth > maxDepth then "Max depth reached"
             else "Max pages reached")), st)
  else if currentUrl ∈ st.visited then
    (.mk path currentUrl [] none none, st)
  else
    let st1 := markVisited currentUrl st
    match crawlBody W maxDepth maxPages baseDomain currentUrl depth
        (by omega) st1 with
    | .ok v => v
    | .error e =>
      (.mk path currentUrl [] none (some (jsMessage e)), st1)
termination_by (maxDepth + 1 - depth, 2, 0)
decreasing_by
  apply Prod.Lex.right
  apply Prod.Lex.left
  omega

def crawlBody (W : World) (maxDepth maxPages : Nat) (baseDomain : String)
    (currentUrl : String) (depth : Nat) (hdep : depth ≤ maxDepth)
    (st1 : CrawlState) : Except JsThrown (RouteNode × CrawlState) :=
  let path := getPathFromUrl currentUrl
  match fetchWithRetry W currentUrl 2 with
  | none =>
    .ok (.mk path currentUrl [] none (some "Failed to fetch after retries"),
      st1)
  | some response =>
    if ¬ response.ok then
      .ok (.mk path currentUrl [] (some response.status)
        (some ("HTTP " ++ toString response.status)), st1)
    else
      let contentType := response.contentType.getD ""
      if ¬ includesStr contentType "text/html" then
        .ok (.mk path currentUrl [] none (some "Not HTML content"), st1)
      else
        match response.textResult with
        | .error e => .error e
        | .ok html =>
          let links := extractLinks W currentUrl baseDomain html
          let cres := crawlChildren W maxDepth maxPages baseDomain links
            (depth + 1) st1
          .ok (.mk path currentUrl
            (cres.1.filter (fun c => c.path ≠ path))
            (some response.status) none, cres.2)
termination_by (maxDepth + 1 - depth, 1, 0)
decreasing_by
  apply Prod.Lex.left
  omega

def crawlChildren (W : World) (maxDepth maxPages : Nat)
    (baseDomain : String) (urls : List String) (depth : Nat)
    (st : CrawlState) : List RouteNode × CrawlState :=
  match urls with
  | [] => ([], st)
  | childUrl :: rest =>
    if childUrl ∉ st.visited ∧ st.pageCount < maxPages then
      let r := crawlPage W maxDepth maxPages baseDomain childUrl depth st
      let rs := crawlChildren W maxDepth maxPages baseDomain rest depth r.2
      (r.1 :: rs.1, rs.2)
    else
      crawlChildren W maxDepth maxPages baseDomain rest depth st
termination_by (maxDepth + 1 - depth, 3, urls.length)
decreasing_by
  · apply Prod.Lex.right
    apply Prod.Lex.left
    omega
  · apply Prod.Lex.right
    apply Prod.Lex.right
    simp
  · apply Prod.Lex.right
    apply Prod.Lex.right
    simp

end

/-! ### The entry point (source lines 20-231) -/

/-- The degenerate root returned when the start string cannot be parsed
(lines 224-229). -/
def invalidStartNode (url : String) : RouteNode :=
  .mk "/" url [] none (some "Invalid starting URL")

/-- Model of `getRoutesFromPage`, keeping the final crawl state alongside
the tree: resolve option defaults (line 24), parse the start URL (lines
218-219, `none` = the constructor threw, caught at line 223), and crawl
from the canonical root `href` at depth 0. -/
def getRoutesFromPageFull (W : World) (url : String)
    (options : CrawlOptions) : RouteNode × CrawlState :=
  let maxDepth := options.maxDepth.getD 2
  let maxPages := options.maxPages.getD 50
  match parseStart url with
  | some baseUrl =>
    crawlPage W maxDepth maxPages baseUrl.host baseUrl.href 0 initState
  | none => (invalidStartNode url, initState)

/-- Model of `getRoutesFromPage`: the returned route tree. -/
def getRoutesFromPage (W : World) (url : String)
    (options : CrawlOptions) : RouteNode :=
  (getRoutesFromPageFull W url options).1

/-- The `new URL(...)` call of line 218 with its throw made explicit: the
constructor throws a `TypeError` on an invalid URL. -/
def parseStartE (url : String) : Except JsThrown UrlObj :=
  match parseStart url with
  | some b => .ok b
  | none => .error ⟨some "Invalid URL"⟩

/-- The entry point with the rejection channel made explicit: an
`Except.error` result would be a rejected promise reaching the caller.
The `catch` at line 223 turns the only throw outside `crawlPage` (the
`URL` constructor) into the degenerate root, and `crawlPage` itself
catches its `try` region, so no branch produces `Except.error`. -/
def getRoutesFromPageE (W : World) (url : String)
    (options : CrawlOptions) : Except JsThrown RouteNode :=
  match parseStartE url with
  | .ok baseUrl =>
    .ok (crawlPage W (options.maxDepth.getD 2) (options.maxPages.getD 50)
      baseUrl.host baseUrl.href 0 initState).1
  | .error _ => .ok (invalidStartNode url)

/-! ### Tree membership -/

/-- Every node of a forest: the roots and, recursively, the nodes of their
children. -/
def subnodesList : List RouteNode → List RouteNode
  | [] => []
  | .mk p u c s e :: rest => .mk p u c s e :: (subnodesList c ++ subnodesList rest)
termination_by l => sizeOf l
decreasing_by
  all_goals (simp; try omega)

/-- Every node of a tree. -/
def subnodes (n : RouteNode) : List RouteNode := subnodesList [n]

theorem subnodesList_cons (n : RouteNode) (rest : List RouteNode) :
    subnodesList (n :: rest) = n :: (subnodesList n.children ++ subnodesList rest) := by
  obtain ⟨p, u, c, st, e⟩ := n
  rw [subnodesList]
  rfl

theorem self_mem_subnodes (n : RouteNode) : n ∈ subnodes n := by
  unfold subnodes
  rw [subnodesList_cons]
  exact List.mem_cons_self _ _

theorem mem_subnodesList {n : RouteNode} {l : List RouteNode} :
    n ∈ subnodesList l ↔ ∃ c ∈ l, n ∈ subnodes c := by
  induction l with
  | nil => simp [subnodesList]
  | cons c cs ih =>
    rw [subnodesList_cons]
    constructor
    · intro h
      rcases List.mem_cons.mp h with rfl | h
      · exact ⟨n, by simp, self_mem_subnodes n⟩
      · rcases List.mem_append.mp h with h | h
        · refine ⟨c, by simp, ?_⟩
          unfold subnodes
          rw [subnodesList_cons]
          exact List.mem_cons_of_mem _ (List.mem_append_left _ h)
        · obtain ⟨c2, hc2, hn⟩ := ih.mp h
          exact ⟨c2, by simp [hc2], hn⟩
    · rintro ⟨c2, hc2, hn⟩
      rcases List.mem_cons.mp hc2 with rfl | hc2
      · unfold subnodes at hn
        rw [subnodesList_cons] at hn
        rcases List.mem_cons.mp hn with rfl | hn
        · exact List.mem_cons_self _ _
        · rcases List.mem_append.mp hn with hn | hn
          · exact List.mem_cons_of_mem _ (List.mem_append_left _ hn)
          · rw [subnodesList] at hn
            simp at hn
      · exact List.mem_cons_of_mem _
          (List.mem_append_right _ (ih.mpr ⟨c2, hc2, hn⟩))

theorem mem_subnodes {n m : RouteNode} :
    n ∈ subnodes m ↔ n = m ∨ ∃ c ∈ m.children, n ∈ subnodes c := by
  unfold subnodes
  rw [subnodesList_cons]
  constructor
  · intro h
    rcases List.mem_cons.mp h with rfl | h
    · exact Or.inl rfl
    · rcases List.mem_append.mp h with h | h
      · exact Or.inr (mem_subnodesList.mp h)
      · rw [subnodesList] at h
        simp at h
  · rintro (rfl | h)
    · exact List.mem_cons_self _ _
    · exact List.mem_cons_of_mem _
        (List.mem_append_left _ (mem_subnodesList.mpr h))

/-! ### Branch equations of `crawlPage` -/

theorem crawlPage_depth_eq (W : World) (md mp : Nat) (bd url : String)
    (depth : Nat) (st : CrawlState) (hd : depth > md) :
    crawlPage W md mp bd url depth st =
      (.mk (getPathFromUrl url) url [] none (some "Max depth reached"), st) := by
  simp only [crawlPage]
  rw [dif_pos (Or.inl hd), if_pos hd]

theorem crawlPage_budget_eq (W : World) (md mp : Nat) (bd url : String)
    (depth : Nat) (st : CrawlState) (hd : ¬ depth > md)
    (hp : st.pageCount ≥ mp) :
    crawlPage W md mp bd url depth st =
      (.mk (getPathFromUrl url) url [] none (some "Max pages reached"), st) := by
  simp only [crawlPage]
  rw [dif_pos (Or.inr hp), if_neg hd]

theorem crawlPage_visited_eq (W : World) (md mp : Nat) (bd url : String)
    (depth : Nat) (st : CrawlState)
    (hg : ¬ (depth > md ∨ st.pageCount ≥ mp)) (hv : url ∈ st.visited) :
    crawlPage W md mp bd url depth st =
      (.mk (getPathFromUrl url) url [] none none, st) := by
  simp only [crawlPage]
  rw [dif_neg hg, if_pos hv]

theorem crawlPage_run_eq (W : World) (md mp : Nat) (bd url : String)
    (depth : Nat) (st : CrawlState) (hdep : depth ≤ md)
    (hg : ¬ (depth > md ∨ st.pageCount ≥ mp)) (hv : url ∉ st.visited) :
    crawlPage W md mp bd url depth st =
      match crawlBody W md mp bd url depth hdep (markVisited url st) with
      | .ok v => v
      | .error e =>
        (.mk (getPathFromUrl url) url [] none (some (jsMessage e)),
          markVisited url st) := by
  simp only [crawlPage]
  rw [dif_neg hg, if_neg hv]

theorem crawlBody_fetchFail_eq (W : World) (md mp : Nat) (bd url : String)
    (depth : Nat) (hdep : depth ≤ md) (st1 : CrawlState)
    (hf : fetchWithRetry W url 2 = none) :
    crawlBody W md mp bd url depth hdep st1 =
      .ok (.mk (getPathFromUrl url) url [] none
        (some "Failed to fetch after retries"), st1) := by
  simp only [crawlBody]
  rw [hf]

theorem crawlBody_httpError_eq (W : World) (md mp : Nat) (bd url : String)
    (depth : Nat) (hdep : depth ≤ md) (st1 : CrawlState) (r : Response)
    (hf : fetchWithRetry W url 2 = some r) (hok : r.ok = false) :
    crawlBody W md mp bd url depth hdep st1 =
      .ok (.mk (getPathFromUrl url) url [] (some r.status)
        (some ("HTTP " ++ toString r.status)), st1) := by
  simp only [crawlBody]
  rw [hf]
  simp [hok]

theorem crawlBody_nonHtml_eq (W : World) (md mp : Nat) (bd url : String)
    (depth : Nat) (hdep : depth ≤ md) (st1 : CrawlState) (r : Response)
    (hf : fetchWithRetry W url 2 = some r) (hok : r.ok = true)
    (hct : includesStr (r.contentType.getD "") "text/html" = false) :
    crawlBody W md mp bd url depth hdep st1 =
      .ok (.mk (getPathFromUrl url) url [] none
        (some "Not HTML content"), st1) := by
  simp only [crawlBody]
  rw [hf]
  simp [hok, hct]

theorem crawlBody_throw_eq (W : World) (md mp : Nat) (bd url : String)
    (depth : Nat) (hdep : depth ≤ md) (st1 : CrawlState) (r : Response)
    (e : JsThrown)
    (hf : fetchWithRetry W url 2 = some r) (hok : r.ok = true)
    (hct : includesStr (r.contentType.getD "") "text/html" = true)
    (htx : r.textResult = .error e) :
    crawlBody W md mp bd url depth hdep st1 = .error e := by
  simp only [crawlBody]
  rw [hf]
  simp [hok, hct, htx]

theorem crawlBody_success_eq (W : World) (md mp : Nat) (bd url : String)
    (depth : Nat) (hdep : depth ≤ md) (st1 : CrawlState) (r : Response)
    (html : String)
    (hf : fetchWithRetry W url 2 = some r) (hok : r.ok = true)
    (hct : includesStr (r.contentType.getD "") "text/html" = true)
    (htx : r.textResult = .ok html) :
    crawlBody W md mp bd url depth hdep st1 =
      .ok (.mk (getPathFromUrl url) url
        ((crawlChildren W md mp bd (extractLinks W url bd html) (depth + 1)
            st1).1.filter
          (fun c => c.path ≠ getPathFromUrl url))
        (some r.status) none,
        (crawlChildren W md mp bd (extractLinks W url bd html) (depth + 1)
          st1).2) := by
  simp only [crawlBody]
  rw [hf]
  simp [hok, hct, htx]

/-! ### Crawl invariants -/

theorem extractStep_valid (cu bd : String) (links : List String)
    (href : String) (h : ∀ u ∈ links, isValidUrl u bd = true) :
    ∀ u ∈ extractStep cu bd links href, isValidUrl u bd = true := by
  intro u hu
  unfold extractStep at hu
  split at hu
  · exact h u hu
  · simp only [ne_eq] at hu
    split at hu
    · rename_i hok
      split at hu
      · exact h u hu
      · rcases List.mem_append.mp hu with hu | hu
        · exact h u hu
        · rcases List.mem_singleton.mp hu with rfl
          exact hok.2
    · exact h u hu

theorem extractLinks_valid (W : World) (cu bd html : String) :
    ∀ u ∈ extractLinks W cu bd html, isValidUrl u bd = true := by
  unfold extractLinks
  generalize W.extractHrefs html = hrefs
  have : ∀ (hrefs : List String) (init : List String),
      (∀ u ∈ init, isValidUrl u bd = true) →
      ∀ u ∈ hrefs.foldl (extractStep cu bd) init, isValidUrl u bd = true := by
    intro hrefs
    induction hrefs with
    | nil => intro init h u hu; exact h u hu
    | cons href rest ih =>
      intro init h u hu
      simp only [List.foldl_cons] at hu
      exact ih _ (extractStep_valid cu bd init href h) u hu
  exact this hrefs [] (by simp)

/-- The status/error discipline of a single produced node. -/
def nodeOk (n : RouteNode) : Prop :=
  (n.status.isSome = true ∧ n.error = none) ∨ n.error.isSome = true

/-- The combined per-node invariant: the status/error discipline, and that
the node's `url` is the one it was called with or passed the domain
filter. -/
def GoodAt (bd url : String) (n : RouteNode) : Prop :=
  nodeOk n ∧ (n.url = url ∨ isValidUrl n.url bd = true)

theorem crawlChildren_nodes_good (W : World) (md mp : Nat) (bd : String)
    (depth : Nat)
    (IH : ∀ url st, url ∉ st.visited →
      ∀ n ∈ subnodes (crawlPage W md mp bd url depth st).1, GoodAt bd url n) :
    ∀ (urls : List String) (st : CrawlState),
      (∀ u ∈ urls, isValidUrl u bd = true) →
      ∀ node ∈ (crawlChildren W md mp bd urls depth st).1,
        ∀ n ∈ subnodes node, nodeOk n ∧ isValidUrl n.url bd = true := by
  intro urls
  induction urls with
  | nil =>
    intro st _ node hnode
    rw [crawlChildren] at hnode
    simp at hnode
  | cons u rest ih =>
    intro st hurls node hnode n hn
    rw [crawlChildren] at hnode
    split at hnode
    · rename_i hcond
      rcases List.mem_cons.mp hnode with rfl | hnode
      · have := IH u st hcond.1 n hn
        rcases this.2 with h2 | h2
        · exact ⟨this.1, h2 ▸ hurls u (by simp)⟩
        · exact ⟨this.1, h2⟩
      · exact ih _ (fun x hx => hurls x (by simp [hx])) node hnode n hn
    · exact ih _ (fun x hx => hurls x (by simp [hx])) node hnode n hn

theorem crawlPage_nodes_good (W : World) (md mp : Nat) (bd : String) :
    ∀ (m depth : Nat), md + 1 - depth ≤ m →
    ∀ (url : String) (st : CrawlState), url ∉ st.visited →
      ∀ n ∈ subnodes (crawlPage W md mp bd url depth st).1, GoodAt bd url n := by
  intro m
  induction m with
  | zero =>
    intro depth hm url st _ n hn
    have hd : depth > md := by omega
    rw [crawlPage_depth_eq W md mp bd url depth st hd] at hn
    rcases mem_subnodes.mp hn with rfl | ⟨c, hc, _⟩
    · exact ⟨Or.inr rfl, Or.inl rfl⟩
    · simp [RouteNode.children] at hc
  | succ m ihm =>
    intro depth hm url st hv n hn
    by_cases hd : depth > md
    · rw [crawlPage_depth_eq W md mp bd url depth st hd] at hn
      rcases mem_subnodes.mp hn with rfl | ⟨c, hc, _⟩
      · exact ⟨Or.inr rfl, Or.inl rfl⟩
      · simp [RouteNode.children] at hc
    · by_cases hp : st.pageCount ≥ mp
      · rw [crawlPage_budget_eq W md mp bd url depth st hd hp] at hn
        rcases mem_subnodes.mp hn with rfl | ⟨c, hc, _⟩
        · exact ⟨Or.inr rfl, Or.inl rfl⟩
        · simp [RouteNode.children] at hc
      · have hg : ¬ (depth > md ∨ st.pageCount ≥ mp) := by omega
        have hdep : depth ≤ md := by omega
        rw [crawlPage_run_eq W md mp bd url depth st hdep hg hv] at hn
        cases hf : fetchWithRetry W url 2 with
        | none =>
          rw [crawlBody_fetchFail_eq W md mp bd url depth hdep _ hf] at hn
          rcases mem_subnodes.mp hn with rfl | ⟨c, hc, _⟩
          · exact ⟨Or.inr rfl, Or.inl rfl⟩
          · simp [RouteNode.children] at hc
        | some r =>
          cases hok : r.ok with
          | false =>
            rw [crawlBody_httpError_eq W md mp bd url depth hdep _ r hf hok]
              at hn
            rcases mem_subnodes.mp hn with rfl | ⟨c, hc, _⟩
            · exact ⟨Or.inr rfl, Or.inl rfl⟩
            · simp [RouteNode.children] at hc
          | true =>
            cases hct : includesStr (r.contentType.getD "") "text/html" with
            | false =>
              rw [crawlBody_nonHtml_eq W md mp bd url depth hdep _ r hf hok
                hct] at hn
              rcases mem_subnodes.mp hn with rfl | ⟨c, hc, _⟩
              · exact ⟨Or.inr rfl, Or.inl rfl⟩
              · simp [RouteNode.children] at hc
            | true =>
              cases htx : r.textResult with
              | error e =>
                rw [crawlBody_throw_eq W md mp bd url depth hdep _ r e hf hok
                  hct htx] at hn
                rcases mem_subnodes.mp hn with rfl | ⟨c, hc, _⟩
                · exact ⟨Or.inr rfl, Or.inl rfl⟩
                · simp [RouteNode.children] at hc
              | ok html =>
                rw [crawlBody_success_eq W md mp bd url depth hdep _ r html hf
                  hok hct htx] at hn
                rcases mem_subnodes.mp hn with rfl | ⟨c, hc, hcn⟩
                · exact ⟨Or.inl ⟨rfl, rfl⟩, Or.inl rfl⟩
                · simp only [RouteNode.children] at hc
                  have hc2 := List.mem_of_mem_filter hc
                  have hchild := crawlChildren_nodes_good W md mp bd (depth + 1)
                    (fun url2 st2 hv2 => ihm (depth + 1) (by omega) url2 st2 hv2)
                    (extractLinks W url bd html) (markVisited url st)
                    (extractLinks_valid W url bd html) c hc2 n hcn
                  exact ⟨hchild.1, Or.inr hchild.2⟩

/-- The state invariant of a crawl: the page counter respects the budget,
and the fetch log counts the pages, is duplicate-free, and only mentions
visited URLs. -/
def StInv (mp : Nat) (st : CrawlState) : Prop :=
  st.pageCount ≤ mp ∧ st.fetched.length = st.pageCount ∧
    st.fetched.Nodup ∧ ∀ u ∈ st.fetched, u ∈ st.visited

theorem StInv_init (mp : Nat) : StInv mp initState := by
  refine ⟨by simp [initState], by simp [initState], by simp [initState], ?_⟩
  intro u hu
  simp [initState] at hu

theorem StInv_markVisited {mp : Nat} {st : CrawlState} {url : String}
    (h : StInv mp st) (hv : url ∉ st.visited) (hp : st.pageCount < mp) :
    StInv mp (markVisited url st) := by
  obtain ⟨h1, h2, h3, h4⟩ := h
  refine ⟨by simp [markVisited]; omega, by simp [markVisited]; omega, ?_, ?_⟩
  · simp only [markVisited]
    rw [List.nodup_append]
    refine ⟨h3, by simp, ?_⟩
    intro a ha hb
    rcases List.mem_singleton.mp hb with rfl
    exact hv (h4 a ha)
  · intro u hu
    simp only [markVisited] at hu ⊢
    rcases List.mem_append.mp hu with hu | hu
    · exact List.mem_cons_of_mem _ (h4 u hu)
    · rcases List.mem_singleton.mp hu with rfl
      exact List.mem_cons_self _ _

theorem crawlChildren_st (W : World) (md mp : Nat) (bd : String)
    (depth : Nat)
    (IH : ∀ url st, StInv mp st →
      StInv mp (crawlPage W md mp bd url depth st).2) :
    ∀ (urls : List String) (st : CrawlState), StInv mp st →
      StInv mp (crawlChildren W md mp bd urls depth st).2 := by
  intro urls
  induction urls with
  | nil =>
    intro st h
    rw [crawlChildren]
    exact h
  | cons u rest ih =>
    intro st h
    rw [crawlChildren]
    split
    · exact ih _ (IH u st h)
    · exact ih _ h

theorem crawlPage_st (W : World) (md mp : Nat) (bd : String) :
    ∀ (m depth : Nat), md + 1 - depth ≤ m →
    ∀ (url : String) (st : CrawlState), StInv mp st →
      StInv mp (crawlPage W md mp bd url depth st).2 := by
  intro m
  induction m with
  | zero =>
    intro depth hm url st h
    have hd : depth > md := by omega
    rw [crawlPage_depth_eq W md mp bd url depth st hd]
    exact h
  | succ m ihm =>
    intro depth hm url st h
    by_cases hd : depth > md
    · rw [crawlPage_depth_eq W md mp bd url depth st hd]
      exact h
    · by_cases hp : st.pageCount ≥ mp
      · rw [crawlPage_budget_eq W md mp bd url depth st hd hp]
        exact h
      · by_cases hv : url ∈ st.visited
        · rw [crawlPage_visited_eq W md mp bd url depth st (by omega) hv]
          exact h
        · have hg : ¬ (depth > md ∨ st.pageCount ≥ mp) := by omega
          have hdep : depth ≤ md := by omega
          rw [crawlPage_run_eq W md mp bd url depth st hdep hg hv]
          have hst1 : StInv mp (markVisited url st) :=
            StInv_markVisited h hv (by omega)
          cases hf : fetchWithRetry W url 2 with
          | none =>
            rw [crawlBody_fetchFail_eq W md mp bd url depth hdep _ hf]
            exact hst1
          | some r =>
            cases hok : r.ok with
            | false =>
              rw [crawlBody_httpError_eq W md mp bd url depth hdep _ r hf hok]
              exact hst1
            | true =>
              cases hct : includesStr (r.contentType.getD "") "text/html" with
              | false =>
                rw [crawlBody_nonHtml_eq W md mp bd url depth hdep _ r hf hok
                  hct]
                exact hst1
              | true =>
                cases htx : r.textResult with
                | error e =>
                  rw [crawlBody_throw_eq W md mp bd url depth hdep _ r e hf hok
                    hct htx]
                  exact hst1
                | ok html =>
                  rw [crawlBody_success_eq W md mp bd url depth hdep _ r html
                    hf hok hct htx]
                  exact crawlChildren_st W md mp bd (depth + 1)
                    (fun url2 st2 h2 => ihm (depth + 1) (by omega) url2 st2 h2)
                    (extractLinks W url bd html) (markVisited url st) hst1

/-! ### Behaviour of the retrying fetcher -/

theorem fetchAux_some (W : World) (url : String) (retries i : Nat)
    (r : Response) (hi : i ≤ retries) (h : W.fetchAttempt url i = some r) :
    fetchAux W url retries i = (some r, i + 1, []) := by
  rw [fetchAux, dif_pos hi, h]

theorem fetchAux_last (W : World) (url : String) (retries : Nat)
    (h : W.fetchAttempt url retries = none) :
    fetchAux W url retries retries = (none, retries + 1, []) := by
  rw [fetchAux, dif_pos (le_refl retries), h, dif_pos rfl]

theorem fetchAux_step (W : World) (url : String) (retries i : Nat)
    (hi : i < retries) (h : W.fetchAttempt url i = none) :
    fetchAux W url retries i =
      ((fetchAux W url retries (i + 1)).1,
        (fetchAux W url retries (i + 1)).2.1,
        1000 * (i + 1) :: (fetchAux W url retries (i + 1)).2.2) := by
  conv_lhs => rw [fetchAux]
  rw [dif_pos (by omega : i ≤ retries), h, dif_neg (by omega : ¬ i = retries)]

theorem fetchAux_att_le (W : World) (url : String) (retries : Nat) :
    ∀ (m i : Nat), retries + 1 - i ≤ m → i ≤ retries →
      (fetchAux W url retries i).2.1 ≤ retries + 1 := by
  intro m
  induction m with
  | zero => intro i h1 h2; omega
  | succ m ih =>
    intro i h1 h2
    cases hatt : W.fetchAttempt url i with
    | some r =>
      rw [fetchAux_some W url retries i r h2 hatt]
      simp
      omega
    | none =>
      by_cases he : i = retries
      · subst he
        rw [fetchAux_last W url i hatt]
      · rw [fetchAux_step W url retries i (by omega) hatt]
        exact ih (i + 1) (by omega) (by omega)

/-! ### Concrete environments for witnesses and counterexamples -/

/-- A 2xx response whose content-type is not HTML. -/
def respJson : Response := ⟨200, some "application/json", .ok ""⟩

/-- A world where every fetch attempt throws. -/
def failWorld : World := ⟨fun _ _ => none, fun _ => []⟩

/-- A world where the first attempt for any URL yields the JSON response. -/
def jsonWorld : World :=
  ⟨fun _ i => if i = 0 then some respJson else none, fun _ => []⟩

/-- A world where the first attempt throws and the second succeeds. -/
def retryWorld : World :=
  ⟨fun _ i => if i = 0 then none else some respJson, fun _ => []⟩

theorem jsonWorld_fetch (url : String) :
    fetchWithRetry jsonWorld url 2 = some respJson := by
  unfold fetchWithRetry fetchTrace
  rw [fetchAux_some jsonWorld url 2 0 respJson (by omega) rfl]

theorem jsonWorld_tree_eq :
    getRoutesFromPage jsonWorld "https://example.com/" {} =
      .mk "/" "https://example.com/" [] none (some "Not HTML content") := by
  have hdep : (0 : Nat) ≤ 2 := by omega
  rw [getRoutesFromPage, getRoutesFromPageFull]
  have hps : parseStart "https://example.com/" =
      some ⟨"https", "example.com", "/", "", ""⟩ := by decide
  simp only [hps, Option.getD_none]
  rw [show (⟨"https", "example.com", "/", "", ""⟩ : UrlObj).href =
    "https://example.com/" from rfl]
  rw [crawlPage_run_eq jsonWorld 2 50 "example.com" "https://example.com/" 0
      initState hdep (by simp [initState]) (by simp [initState]),
    crawlBody_nonHtml_eq jsonWorld 2 50 "example.com" "https://example.com/" 0
      hdep _ respJson (jsonWorld_fetch _) (by decide) (by decide)]
  rfl

/-- The hostname of a URL string, through the model parser (the `hostname`
getter of `new URL(s)`). -/
def urlHost (s : String) : Option String := (parseAbs s).map (fun u => u.host)

/-! ### The claims -/

/-- C1: for every RouteNode in any tree returned by `getRoutesFromPage`,
exactly one of the following holds: the node's `status` field is present
and its `error` field is absent, or its `error` field is present. -/
theorem getRoutesFromPage_status_xor_error (W : World) (url : String)
    (opts : CrawlOptions) (n : RouteNode)
    (hn : n ∈ subnodes (getRoutesFromPage W url opts)) :
    Xor' (n.status.isSome = true ∧ n.error = none) (n.error.isSome = true) := by
  have hok : nodeOk n := by
    unfold getRoutesFromPage getRoutesFromPageFull at hn
    cases hps : parseStart url with
    | none =>
      simp only [hps] at hn
      rcases mem_subnodes.mp hn with rfl | ⟨c, hc, _⟩
      · right; rfl
      · simp [invalidStartNode, RouteNode.children] at hc
    | some b =>
      simp only [hps] at hn
      exact (crawlPage_nodes_good W (opts.maxDepth.getD 2)
        (opts.maxPages.getD 50) b.host ((opts.maxDepth.getD 2) + 1) 0
        (by omega) b.href initState (by simp [initState]) n hn).1
  rcases hok with ⟨h1, h2⟩ | h1
  · left
    refine ⟨⟨h1, h2⟩, ?_⟩
    rw [h2]
    simp
  · right
    refine ⟨h1, ?_⟩
    rintro ⟨_, h2⟩
    rw [h2] at h1
    simp at h1

/-- C1 witness: the single node returned for an unparsable start string
satisfies the disjunction. -/
theorem getRoutesFromPage_status_xor_error_w :
    Xor' ((invalidStartNode "not a url").status.isSome = true ∧
        (invalidStartNode "not a url").error = none)
      ((invalidStartNode "not a url").error.isSome = true) :=
  getRoutesFromPage_status_xor_error failWorld "not a url" {}
    (invalidStartNode "not a url")
    (by
      rw [show getRoutesFromPage failWorld "not a url" {} =
        invalidStartNode "not a url" from rfl]
      exact self_mem_subnodes _)

/-- C2 counterexample: a 2xx fetch with a non-HTML content-type produces a
node whose `status` field is absent, contrary to the claim that the status
is present. -/
theorem nonHtml_node_has_no_status_cex :
    fetchWithRetry jsonWorld "https://example.com/" 2 = some respJson ∧
    respJson.ok = true ∧
    includesStr (respJson.contentType.getD "") "text/html" = false ∧
    (getRoutesFromPage jsonWorld "https://example.com/" {}).error =
      some "Not HTML content" ∧
    (getRoutesFromPage jsonWorld "https://example.com/" {}).status = none := by
  refine ⟨jsonWorld_fetch _, by decide, by decide, ?_, ?_⟩
  · rw [jsonWorld_tree_eq]
    rfl
  · rw [jsonWorld_tree_eq]
    rfl

/-- C2 as amended: when the fetch succeeds with a 2xx response whose
content-type is not HTML, the returned node has NO status field, its error
equals "Not HTML content", and its children are empty (no link extraction
is attempted; the state changes only by marking the URL visited). -/
theorem crawlPage_nonHtml_no_status (W : World) (md mp : Nat)
    (bd url : String) (depth : Nat) (st : CrawlState) (r : Response)
    (hg : ¬ (depth > md ∨ st.pageCount ≥ mp)) (hv : url ∉ st.visited)
    (hf : fetchWithRetry W url 2 = some r) (hok : r.ok = true)
    (hct : includesStr (r.contentType.getD "") "text/html" = false) :
    crawlPage W md mp bd url depth st =
      (.mk (getPathFromUrl url) url [] none (some "Not HTML content"),
        markVisited url st) := by
  have hdep : depth ≤ md := by omega
  rw [crawlPage_run_eq W md mp bd url depth st hdep hg hv,
    crawlBody_nonHtml_eq W md mp bd url depth hdep _ r hf hok hct]

/-- C2 witness. -/
theorem crawlPage_nonHtml_no_status_w :
    crawlPage jsonWorld 2 50 "example.com" "https://example.com/" 0
        initState =
      (.mk "/" "https://example.com/" [] none (some "Not HTML content"),
        markVisited "https://example.com/" initState) := by
  rw [crawlPage_nonHtml_no_status jsonWorld 2 50 "example.com"
    "https://example.com/" 0 initState respJson (by simp [initState])
    (by simp [initState]) (jsonWorld_fetch _) (by decide) (by decide)]
  rfl

/-- C3 counterexample: with the page budget exhausted (pageCount = 1 ≥
maxPages = 1), a crawlPage call at depth 1 > maxDepth = 0 returns error
"Max depth reached", not "Max pages reached" as the claim states. -/
theorem budget_error_depth_precedence_cex :
    ((⟨["https://example.com/"], 1, ["https://example.com/"]⟩ :
      CrawlState).pageCount ≥ 1) ∧
    (crawlPage failWorld 0 1 "example.com" "https://example.com/a" 1
        ⟨["https://example.com/"], 1, ["https://example.com/"]⟩).1.error =
      some "Max depth reached" := by
  refine ⟨by decide, ?_⟩
  rw [crawlPage_depth_eq failWorld 0 1 "example.com" "https://example.com/a"
    1 _ (by omega)]
  rfl

/-- C3 as amended: over a whole crawl the fetch log is duplicate-free and
its length is at most `maxPages` (so at most `maxPages` distinct URLs are
fetched); and once the page counter has reached `maxPages`, any further
`crawlPage` call performs no fetch (the state is unchanged) and returns a
budget node whose error is "Max depth reached" when its depth also exceeds
`maxDepth` and "Max pages reached" otherwise. -/
theorem crawl_fetch_budget :
    (∀ (W : World) (url : String) (opts : CrawlOptions),
      (getRoutesFromPageFull W url opts).2.fetched.Nodup ∧
      (getRoutesFromPageFull W url opts).2.fetched.length ≤
        opts.maxPages.getD 50) ∧
    (∀ (W : World) (md mp : Nat) (bd url : String) (depth : Nat)
      (st : CrawlState), st.pageCount ≥ mp →
      crawlPage W md mp bd url depth st =
        (.mk (getPathFromUrl url) url [] none
          (some (if depth > md then "Max depth reached"
                 else "Max pages reached")), st)) := by
  constructor
  · intro W url opts
    unfold getRoutesFromPageFull
    cases hps : parseStart url with
    | none =>
      simp only [hps]
      exact ⟨by simp [initState], by simp [initState]⟩
    | some b =>
      simp only [hps]
      have := crawlPage_st W (opts.maxDepth.getD 2) (opts.maxPages.getD 50)
        b.host ((opts.maxDepth.getD 2) + 1) 0 (by omega) b.href initState
        (StInv_init _)
      obtain ⟨h1, h2, h3, _⟩ := this
      exact ⟨h3, by omega⟩
  · intro W md mp bd url depth st hp
    by_cases hd : depth > md
    · rw [crawlPage_depth_eq W md mp bd url depth st hd, if_pos hd]
    · rw [crawlPage_budget_eq W md mp bd url depth st hd hp, if_neg hd]

/-- C3 witness. -/
theorem crawl_fetch_budget_w :
    (getRoutesFromPageFull failWorld "https://example.com/" {}).2.fetched.Nodup ∧
    crawlPage failWorld 2 1 "example.com" "https://example.com/b" 1
        ⟨["https://example.com/"], 1, ["https://example.com/"]⟩ =
      (.mk "/b" "https://example.com/b" [] none (some "Max pages reached"),
        ⟨["https://example.com/"], 1, ["https://example.com/"]⟩) := by
  constructor
  · exact (crawl_fetch_budget.1 failWorld "https://example.com/" {}).1
  · rw [crawl_fetch_budget.2 failWorld 2 1 "example.com"
      "https://example.com/b" 1
      ⟨["https://example.com/"], 1, ["https://example.com/"]⟩ (by decide)]
    rfl

/-- C4: a crawlPage call at depth strictly greater than maxDepth returns a
node with empty children, error "Max depth reached" and no status, and
performs no fetch (the state, including the fetch log, is unchanged). -/
theorem crawlPage_max_depth (W : World) (md mp : Nat) (bd url : String)
    (depth : Nat) (st : CrawlState) (h : depth > md) :
    crawlPage W md mp bd url depth st =
      (.mk (getPathFromUrl url) url [] none (some "Max depth reached"), st) :=
  crawlPage_depth_eq W md mp bd url depth st h

/-- C4 witness. -/
theorem crawlPage_max_depth_w :
    crawlPage failWorld 2 50 "example.com" "https://example.com/a" 3
        initState =
      (.mk "/a" "https://example.com/a" [] none (some "Max depth reached"),
        initState) := by
  rw [crawlPage_max_depth failWorld 2 50 "example.com"
    "https://example.com/a" 3 initState (by omega)]
  rfl

/-- C5: in a tree rooted at a start URL whose parsed host is D, every node
(root and descendants, including error nodes) has a `url` whose hostname is
exactly D. -/
theorem getRoutesFromPage_same_host (W : World) (url : String)
    (opts : CrawlOptions) (b : UrlObj) (hps : parseStart url = some b)
    (n : RouteNode) (hn : n ∈ subnodes (getRoutesFromPage W url opts)) :
    urlHost n.url = some b.host := by
  have hcanon : Canon b := by
    unfold parseStart at hps
    exact parseAbs_canon hps
  unfold getRoutesFromPage getRoutesFromPageFull at hn
  simp only [hps] at hn
  have hgood := (crawlPage_nodes_good W (opts.maxDepth.getD 2)
    (opts.maxPages.getD 50) b.host ((opts.maxDepth.getD 2) + 1) 0 (by omega)
    b.href initState (by simp [initState]) n hn).2
  rcases hgood with h | h
  · rw [h]
    unfold urlHost
    rw [parseAbs_href hcanon]
    rfl
  · unfold isValidUrl at h
    cases hpa : parseAbs n.url with
    | none => rw [hpa] at h; simp at h
    | some u2 =>
      rw [hpa] at h
      simp only [decide_eq_true_eq] at h
      unfold urlHost
      rw [hpa]
      simp [h]

/-- C5 witness. -/
theorem getRoutesFromPage_same_host_w :
    urlHost "https://example.com/" = some "example.com" := by
  have := getRoutesFromPage_same_host jsonWorld "https://example.com/" {}
    ⟨"https", "example.com", "/", "", ""⟩ (by decide)
    (getRoutesFromPage jsonWorld "https://example.com/" {})
    (self_mem_subnodes _)
  rw [jsonWorld_tree_eq] at this
  exact this

/-- C6: `fetchWithRetry` makes at most 3 attempts; any attempt yielding an
HTTP response (including 4xx/5xx) ends the loop at once and is returned
without retrying; between consecutive failed attempts n and n+1 it waits
exactly 1000·n ms; only after all 3 attempts fail does it return the null
sentinel, from which the caller produces error "Failed to fetch after
retries" with no status. -/
theorem fetchWithRetry_spec (W : World) (url : String) :
    fetchWithRetry W url 2 = (fetchTrace W url 2).1 ∧
    (fetchTrace W url 2).2.1 ≤ 3 ∧
    (∀ (i : Nat) (r : Response), i ≤ 2 →
      (∀ j, j < i → W.fetchAttempt url j = none) →
      W.fetchAttempt url i = some r →
      fetchTrace W url 2 =
        (some r, i + 1, (List.range i).map (fun j => 1000 * (j + 1)))) ∧
    ((∀ j, j ≤ 2 → W.fetchAttempt url j = none) →
      fetchTrace W url 2 = (none, 3, [1000, 2000])) ∧
    (∀ (md mp : Nat) (bd : String) (depth : Nat) (st : CrawlState),
      ¬ (depth > md ∨ st.pageCount ≥ mp) → url ∉ st.visited →
      fetchWithRetry W url 2 = none →
      crawlPage W md mp bd url depth st =
        (.mk (getPathFromUrl url) url [] none
          (some "Failed to fetch after retries"), markVisited url st)) := by
  refine ⟨rfl, ?_, ?_, ?_, ?_⟩
  · exact fetchAux_att_le W url 2 3 0 (by omega) (by omega)
  · intro i r hi h0 hs
    interval_cases i
    · unfold fetchTrace
      rw [fetchAux_some W url 2 0 r (by omega) hs]
      simp
    · unfold fetchTrace
      rw [fetchAux_step W url 2 0 (by omega) (h0 0 (by omega)),
        fetchAux_some W url 2 1 r (by omega) hs]
      simp [List.range_succ]
    · unfold fetchTrace
      rw [fetchAux_step W url 2 0 (by omega) (h0 0 (by omega)),
        fetchAux_step W url 2 1 (by omega) (h0 1 (by omega)),
        fetchAux_some W url 2 2 r (by omega) hs]
      simp [List.range_succ]
  · intro hall
    unfold fetchTrace
    rw [fetchAux_step W url 2 0 (by omega) (hall 0 (by omega)),
      fetchAux_step W url 2 1 (by omega) (hall 1 (by omega)),
      fetchAux_last W url 2 (hall 2 (by omega))]
  · intro md mp bd depth st hg hv hf
    have hdep : depth ≤ md := by omega
    rw [crawlPage_run_eq W md mp bd url depth st hdep hg hv,
      crawlBody_fetchFail_eq W md mp bd url depth hdep _ hf]

/-- C6 witness: first attempt fails, second succeeds, one 1000 ms sleep. -/
theorem fetchWithRetry_spec_w :
    fetchTrace retryWorld "https://example.com/" 2 =
      (some respJson, 2, [1000]) := by
  have := (fetchWithRetry_spec retryWorld "https://example.com/").2.2.1 1
    respJson (by omega)
    (by
      intro j hj
      interval_cases j
      rfl)
    rfl
  simpa using this

/-- C7: a start string that cannot be parsed as a URL (after the source's
`https://` prefixing rule) yields exactly the single node
`{path "/", url = input, children [], error "Invalid starting URL"}` and no
fetch is issued (the final state is the initial one, with an empty fetch
log). -/
theorem getRoutesFromPage_invalid_start (W : World) (url : String)
    (opts : CrawlOptions) (h : parseStart url = none) :
    getRoutesFromPageFull W url opts =
      (.mk "/" url [] none (some "Invalid starting URL"), initState) := by
  unfold getRoutesFromPageFull
  simp only [h]
  rfl

/-- C7 witness: the input "not a url". -/
theorem getRoutesFromPage_invalid_start_w :
    getRoutesFromPageFull failWorld "not a url" {} =
      (.mk "/" "not a url" [] none (some "Invalid starting URL"),
        initState) :=
  getRoutesFromPage_invalid_start failWorld "not a url" {} (by decide)

/-- C8: `getRoutesFromPage` always resolves with a RouteNode tree and never
propagates a raised exception: the rejection-explicit entry point always
returns `Except.ok` of the tree; an unparsable input is encoded as the
"Invalid starting URL" error field; and a value thrown inside the `try`
region of `crawlPage` is caught and encoded as an error field on the
node. -/
theorem getRoutesFromPage_never_rejects :
    (∀ (W : World) (url : String) (opts : CrawlOptions),
      getRoutesFromPageE W url opts = .ok (getRoutesFromPage W url opts)) ∧
    (∀ (W : World) (url : String) (opts : CrawlOptions),
      parseStart url = none →
      (getRoutesFromPage W url opts).error = some "Invalid starting URL") ∧
    (∀ (W : World) (md mp : Nat) (bd url : String) (depth : Nat)
      (st : CrawlState) (hdep : depth ≤ md) (e : JsThrown),
      ¬ (depth > md ∨ st.pageCount ≥ mp) → url ∉ st.visited →
      crawlBody W md mp bd url depth hdep (markVisited url st) = .error e →
      crawlPage W md mp bd url depth st =
        (.mk (getPathFromUrl url) url [] none (some (jsMessage e)),
          markVisited url st)) := by
  refine ⟨?_, ?_, ?_⟩
  · intro W url opts
    unfold getRoutesFromPageE parseStartE getRoutesFromPage
      getRoutesFromPageFull
    cases hps : parseStart url with
    | none => simp only [hps]
    | some b => simp only [hps]
  · intro W url opts h
    unfold getRoutesFromPage getRoutesFromPageFull
    simp only [h]
    rfl
  · intro W md mp bd url depth st hdep e hg hv hbody
    rw [crawlPage_run_eq W md mp bd url depth st hdep hg hv, hbody]

/-- C8 witness. -/
theorem getRoutesFromPage_never_rejects_w :
    getRoutesFromPageE failWorld "not a url" {} =
      .ok (getRoutesFromPage failWorld "not a url" {}) ∧
    (getRoutesFromPage failWorld "not a url" {}).error =
      some "Invalid starting URL" :=
  ⟨getRoutesFromPage_never_rejects.1 failWorld "not a url" {},
    getRoutesFromPage_never_rejects.2.1 failWorld "not a url" {} (by decide)⟩

/-- C9 counterexample: normalisation is not idempotent as claimed.  The
link "MAILTO:a@b.c" normalises successfully to "mailto:a@b.c" (the URL
parser lowercases the scheme), but normalising that result hits the
`mailto:` rejection prefix and yields "" instead of the identical
string. -/
theorem normalizeUrl_idempotence_cex :
    normalizeUrl "https://example.com/" "MAILTO:a@b.c" = "mailto:a@b.c" ∧
    normalizeUrl "https://example.com/"
      (normalizeUrl "https://example.com/" "MAILTO:a@b.c") = "" := by
  constructor
  · decide
  · decide

/-- C9 as amended: normalisation is idempotent on every result that does
not begin with one of the rejected scheme prefixes, for any second base
that itself parses: if `normalizeUrl b u` succeeds with `v` and `v` starts
with none of `javascript:`, `mailto:`, `tel:`, `data:`, `blob:`, then
`normalizeUrl b2 v = v`. -/
theorem normalizeUrl_idempotent_amended (b b2 u v : String)
    (h : normalizeUrl b u = v) (hne : v ≠ "")
    (hb2 : ∃ w, parseAbs b2 = some w)
    (hj : startsWithStr v "javascript:" = false)
    (hm : startsWithStr v "mailto:" = false)
    (ht : startsWithStr v "tel:" = false)
    (hd : startsWithStr v "data:" = false)
    (hbl : startsWithStr v "blob:" = false) :
    normalizeUrl b2 v = v := by
  unfold normalizeUrl at h
  split at h
  · exact absurd h.symm hne
  · cases hnew : newURL u b with
    | none => rw [hnew] at h; exact absurd h.symm hne
    | some obj =>
      rw [hnew] at h
      subst h
      exact normalizeUrl_fixed (canon_strip (newURL_canon hnew)) rfl rfl hb2
        hj hm ht hd hbl

/-- C9 witness: a stripped same-scheme link normalises to itself. -/
theorem normalizeUrl_idempotent_amended_w :
    normalizeUrl "https://base.org/" "https://example.com/foo" =
      "https://example.com/foo" :=
  normalizeUrl_idempotent_amended "https://example.com/" "https://base.org/"
    "/foo?q=1" "https://example.com/foo" (by decide) (by decide)
    ⟨⟨"https", "base.org", "/", "", ""⟩, by decide⟩ (by decide) (by decide)
    (by decide) (by decide) (by decide)

/-- C10: when a crawlPage call exceeds both budgets (depth > maxDepth and
pageCount ≥ maxPages), the depth check takes precedence: the node's error
is "Max depth reached", with no status and empty children. -/
theorem crawlPage_depth_over_budget (W : World) (md mp : Nat)
    (bd url : String) (depth : Nat) (st : CrawlState)
    (hd : depth > md) (hp : st.pageCount ≥ mp) :
    crawlPage W md mp bd url depth st =
      (.mk (getPathFromUrl url) url [] none (some "Max depth reached"), st) :=
  crawlPage_depth_eq W md mp bd url depth st hd

/-- C10 witness. -/
theorem crawlPage_depth_over_budget_w :
    crawlPage failWorld 0 1 "example.com" "https://example.com/c" 1
        ⟨["https://example.com/"], 1, ["https://example.com/"]⟩ =
      (.mk "/c" "https://example.com/c" [] none (some "Max depth reached"),
        ⟨["https://example.com/"], 1, ["https://example.com/"]⟩) := by
  rw [crawlPage_depth_over_budget failWorld 0 1 "example.com"
    "https://example.com/c" 1
    ⟨["https://example.com/"], 1, ["https://example.com/"]⟩ (by omega)
    (by decide)]
  rfl
